import Mathlib

/-!
Verification of the ingest-and-aggregate core of go-batsd against its
natural-language specification.

The embedding translates the two Go source files:
  * `src/receiver/receiver.go` — line parser, gauge/counter/timer engines,
    heartbeat-driven bucket wheels, historical/recent sink writers;
  * `src/receiver.go` — the dispatcher-fed engine loop `processDatatype`.

Modelling conventions, fixed once here:
  * Go `float64` values are modelled as exact rationals (`Rat`); IEEE rounding
    and `%v` float formatting are abstracted (payload rendering takes an
    arbitrary value-formatting function `fmtV : Rat → String`).
  * Go `int64` Unix timestamps are `Int`; Go's truncated `%` is `Int.tmod`.
  * Go maps (`map[string]float64`, `map[string][]float64`) are association
    lists with unique keys; Go's randomized iteration order is determinized
    to list order (all claims are order-insensitive: per-entry or sums).
  * Channel sends are collected into result lists; each engine goroutine
    becomes a state-transition function over the events it consumes.
-/

/-! ## Small list helpers used throughout -/

theorem getD_set_self {α : Type} (l : List α) (i : Nat) (a d : α) :
    (l.set i a).getD i d = if i < l.length then a else d := by
  induction l generalizing i with
  | nil => simp [List.set]
  | cons x xs ih =>
    cases i with
    | zero => simp [List.set, List.getD]
    | succ j =>
      simp only [List.set, List.length_cons]
      have := ih j
      simpa [List.getD] using this

theorem getD_set_other {α : Type} (l : List α) (i j : Nat) (a d : α) (h : i ≠ j) :
    (l.set i a).getD j d = l.getD j d := by
  induction l generalizing i j with
  | nil => simp [List.set]
  | cons x xs ih =>
    cases i with
    | zero =>
      cases j with
      | zero => exact absurd rfl h
      | succ j' => simp [List.set, List.getD]
    | succ i' =>
      cases j with
      | zero => simp [List.set, List.getD]
      | succ j' =>
        simp only [List.set]
        have := ih i' j' (fun hh => h (by simp [hh]))
        simpa [List.getD] using this

theorem zipWith_getD {α β γ : Type} (f : α → β → γ) (as : List α) (bs : List β)
    (i : Nat) (da : α) (db : β) (dc : γ) (h1 : i < as.length) (h2 : i < bs.length) :
    (List.zipWith f as bs).getD i dc = f (as.getD i da) (bs.getD i db) := by
  induction as generalizing bs i with
  | nil => simp at h1
  | cons a as' ih =>
    cases bs with
    | nil => simp at h2
    | cons b bs' =>
      cases i with
      | zero => simp [List.getD]
      | succ j =>
        simp only [List.zipWith]
        have h1' : j < as'.length := by simpa using h1
        have h2' : j < bs'.length := by simpa using h2
        have := ih bs' j h1' h2'
        simpa [List.getD] using this

theorem unzip_fst_eq {α β : Type} (l : List (α × β)) : l.unzip.1 = l.map Prod.fst := by
  induction l with
  | nil => rfl
  | cons x xs ih => simp [List.unzip, ih]

theorem unzip_snd_eq {α β : Type} (l : List (α × β)) : l.unzip.2 = l.map Prod.snd := by
  induction l with
  | nil => rfl
  | cons x xs ih => simp [List.unzip, ih]

/-- Minimum of a list of naturals, `none` on the empty list. -/
def natsMin : List Nat → Option Nat
  | [] => none
  | x :: xs =>
    match natsMin xs with
    | none => some x
    | some m => some (Nat.min x m)

/-- Maximum of a list of naturals, `none` on the empty list. -/
def natsMax : List Nat → Option Nat
  | [] => none
  | x :: xs =>
    match natsMax xs with
    | none => some x
    | some m => some (Nat.max x m)

theorem natsMin_isSome_iff (l : List Nat) : (natsMin l).isSome ↔ l ≠ [] := by
  cases l with
  | nil => simp [natsMin]
  | cons x xs =>
    simp only [ne_eq, reduceCtorEq, not_false_iff, iff_true]
    cases h : natsMin xs <;> simp [natsMin, h]

theorem natsMin_mem {l : List Nat} {m : Nat} (h : natsMin l = some m) : m ∈ l := by
  induction l generalizing m with
  | nil => simp [natsMin] at h
  | cons x xs ih =>
    simp only [natsMin] at h
    cases hx : natsMin xs with
    | none =>
      rw [hx] at h
      simp at h
      simp [h]
    | some m' =>
      rw [hx] at h
      simp at h
      have h2 : min x m' = m := h
      have hm : m = x ∨ m = m' := by omega
      rcases hm with hm1 | hm1 <;> rw [hm1]
      · exact List.mem_cons_self x xs
      · exact List.mem_cons_of_mem x (ih hx)

theorem natsMin_le {l : List Nat} {m : Nat} (h : natsMin l = some m) :
    ∀ x ∈ l, m ≤ x := by
  induction l generalizing m with
  | nil => simp
  | cons x xs ih =>
    intro y hy
    simp only [natsMin] at h
    cases hx : natsMin xs with
    | none =>
      rw [hx] at h; simp at h
      have : xs = [] := by
        by_contra hne
        have := (natsMin_isSome_iff xs).2 hne
        rw [hx] at this; simp at this
      subst this
      simp at hy
      simp [hy, h]
    | some m' =>
      rw [hx] at h; simp at h
      rcases List.mem_cons.1 hy with rfl | hmem
      · rw [← h]; exact Nat.min_le_left _ _
      · rw [← h]
        exact le_trans (Nat.min_le_right _ _) (ih hx y hmem)

theorem natsMax_isSome_iff (l : List Nat) : (natsMax l).isSome ↔ l ≠ [] := by
  cases l with
  | nil => simp [natsMax]
  | cons x xs =>
    simp only [ne_eq, reduceCtorEq, not_false_iff, iff_true]
    cases h : natsMax xs <;> simp [natsMax, h]

theorem natsMax_mem {l : List Nat} {m : Nat} (h : natsMax l = some m) : m ∈ l := by
  induction l generalizing m with
  | nil => simp [natsMax] at h
  | cons x xs ih =>
    simp only [natsMax] at h
    cases hx : natsMax xs with
    | none =>
      rw [hx] at h
      simp at h
      simp [h]
    | some m' =>
      rw [hx] at h
      simp at h
      have h2 : max x m' = m := h
      have hm : m = x ∨ m = m' := by omega
      rcases hm with hm1 | hm1 <;> rw [hm1]
      · exact List.mem_cons_self x xs
      · exact List.mem_cons_of_mem x (ih hx)

/-! ## Line parser (`parseDatapoint`, `processIncomingMessage`)

Go source (src/receiver/receiver.go:153-165) compiles the regular expression
`(.*):([0-9|\.]+)\|(c|g|ms)` and takes the first match's submatches.  Note the
character class is `[0-9|\.]`: it contains the literal pipe character.

The embedding reproduces Go's (RE2, leftmost-first) match semantics for this
particular pattern on a character list:
  * a match starts at the leftmost position from which the whole pattern can
    match; `.` does not match a newline;
  * `(.*)` is greedy: the capture runs to the rightmost colon that still lets
    `([0-9|\.]+)\|(c|g|ms)` match, backtracking as needed;
  * `([0-9|\.]+)` is greedy with backtracking; the pattern is unanchored, so
    trailing characters after the type letter(s) are ignored.
-/

/-- Character class `[0-9|\.]` of the Go regex (note: contains `|`). -/
def isValueChar (c : Char) : Bool := c.isDigit || c == '|' || c == '.'

/-- Character class `[0-9.]` of the grammar stated by the spec. -/
def isSpecValueChar (c : Char) : Bool := c.isDigit || c == '.'

/-- Second character of the `ms` alternative. -/
def typeMatchTail : List Char → Option String
  | [] => none
  | c2 :: _ => if c2 = 's' then some "ms" else none

/-- Alternation `(c|g|ms)` matched at the head of the remaining input
(unanchored: anything may follow); alternatives tried in order. -/
def typeMatch : List Char → Option String
  | [] => none
  | c :: cs =>
    if c = 'c' then some "c"
    else if c = 'g' then some "g"
    else if c = 'm' then typeMatchTail cs
    else none

/-- Greedy-with-backtracking search for the split of `t` as
`value ++ '|' :: type ++ rest`: try value length `ℓ`, then `ℓ-1`, … down to 1.
The caller starts at the length of the maximal `[0-9|\.]` run, so every
candidate prefix lies inside the class. -/
def tryValueLen (t : List Char) : Nat → Option (List Char × String)
  | 0 => none
  | Nat.succ ℓ' =>
    if t.get? (Nat.succ ℓ') = some '|' then
      match typeMatch (t.drop (Nat.succ ℓ' + 1)) with
      | some ty => some (t.take (Nat.succ ℓ'), ty)
      | none => tryValueLen t ℓ'
    else tryValueLen t ℓ'

/-- Match `([0-9|\.]+)\|(c|g|ms)` at the head of `t` (the characters after a
candidate colon), returning the value capture and the type capture. -/
def valueTypeMatch (t : List Char) : Option (List Char × String) :=
  tryValueLen t (t.takeWhile isValueChar).length

/-- Start of the newline-free run of `σ` that ends just before index `k`:
the leftmost position from which `(.*)` (which cannot cross `\n`) can reach
the colon at `k`. -/
def startFor (σ : List Char) (k : Nat) : Nat :=
  k - ((σ.take k).reverse.takeWhile (fun c => c != '\n')).length

/-- Indices of colons after which `([0-9|\.]+)\|(c|g|ms)` matches. -/
def viableColons (σ : List Char) : List Nat :=
  (List.range σ.length).filter
    (fun k => σ.get? k == some ':' && (valueTypeMatch (σ.drop (k + 1))).isSome)

/-- First match of `(.*):([0-9|\.]+)\|(c|g|ms)` in `σ` with Go's leftmost-first
semantics: earliest possible start, then greedy `(.*)` (rightmost reachable
viable colon), then greedy value.  Returns (name, value, type) captures. -/
def regexFirstMatch (σ : List Char) : Option (List Char × List Char × String) :=
  match natsMin ((viableColons σ).map (startFor σ)) with
  | none => none
  | some p =>
    match natsMax ((viableColons σ).filter (fun k => startFor σ k ≤ p)) with
    | none => none
    | some k =>
      match valueTypeMatch (σ.drop (k + 1)) with
      | none => none
      | some (v, ty) => some ((σ.drop p).take (k - p), v, ty)

/-- Numeric value of a digit run (most significant first). -/
def natOfDigits (ds : List Char) : Nat :=
  ds.foldl (fun a c => a * 10 + (c.toNat - '0'.toNat)) 0

/-- Model of Go `strconv.ParseFloat` restricted to the alphabet `{0-9, '|', '.'}`
that the regex value capture can contain: it succeeds exactly on a decimal
literal (no `|`, at most one `.`, at least one digit) and yields its exact
rational value (IEEE-754 rounding of the parsed value is abstracted away). -/
def goParseFloat (v : List Char) : Option Rat :=
  if v.any (fun c => c == '|') then none
  else if 2 ≤ v.count '.' then none
  else if !(v.any Char.isDigit) then none
  else
    let ip := v.takeWhile (fun c => c != '.')
    let fp := (v.dropWhile (fun c => c != '.')).drop 1
    some ((natOfDigits ip : Rat) + (natOfDigits fp : Rat) / ((10 : Rat) ^ fp.length))

/-- In-flight sample (struct `Datapoint`); the Go `time.Time` ingestion
timestamp is kept as Unix seconds. -/
structure Datapoint where
  timestamp : Int
  name : String
  value : Rat
  datatype : String
deriving DecidableEq, Repr

/-- Go `parseDatapoint`: first regex match, value via `ParseFloat` with the
error ignored (Go leaves `value = 0` when parsing fails); no match yields the
zero-value `Datapoint{}` sentinel. `now` stands for `time.Now()`. -/
def parseDatapoint (now : Int) (metric : String) : Datapoint :=
  match regexFirstMatch metric.data with
  | some (name, v, ty) =>
    { timestamp := now, name := String.mk name, value := (goParseFloat v).getD 0, datatype := ty }
  | none => { timestamp := 0, name := "", value := 0, datatype := "" }

/-- The three per-datatype engine queues. -/
inductive EngineChannel
  | gauge
  | counter
  | timer
deriving DecidableEq, Repr

/-- Go `processIncomingMessage`: parse, then route by datatype; the sentinel
(datatype `""`) is dropped, so unmatched lines reach no engine queue. -/
def processIncomingMessage (now : Int) (message : String) : Option (EngineChannel × Datapoint) :=
  let d := parseDatapoint now message
  if d.datatype = "g" then some (EngineChannel.gauge, d)
  else if d.datatype = "c" then some (EngineChannel.counter, d)
  else if d.datatype = "ms" then some (EngineChannel.timer, d)
  else none

/-- Decidable check of the grammar exactly as the spec words it: the whole line
is `<name>:<value>|<type>` with `<value>` a nonempty `[0-9.]` run and `<type>`
one of `c`, `g`, `ms`. -/
def specGrammarMatch (s : String) : Bool :=
  let σ := s.data
  (List.range σ.length).any (fun i =>
    σ.get? i == some ':' &&
    (List.range σ.length).any (fun j =>
      i < j && σ.get? j == some '|' &&
      decide (0 < j - (i + 1)) &&
      ((σ.drop (i + 1)).take (j - (i + 1))).all isSpecValueChar &&
      (σ.drop (j + 1) == ['c'] || σ.drop (j + 1) == ['g'] || σ.drop (j + 1) == ['m', 's'])))

/-- Declarative reading of what the code's regex can match somewhere in the
line: some decomposition `a ++ ":" ++ v ++ "|" ++ t ++ b` with `v` a nonempty
run of the code's class `[0-9|.]` and `t` one of the three type words. -/
def CodeGrammar (σ : List Char) : Prop :=
  ∃ a v t b, σ = a ++ ':' :: (v ++ '|' :: (t ++ b)) ∧ v ≠ [] ∧
    (∀ c ∈ v, isValueChar c) ∧ (t = ['c'] ∨ t = ['g'] ∨ t = ['m', 's'])

/-! ## Configuration and aggregation engines

`shared.Config.Retentions` is supplied by the external configuration loader;
only the interval (seconds, a positive Go `int64`) is used by the core, so it
is modelled as a `Nat`.  `heartbeatInterval = 1`, so `maxSlots = interval`.
The murmur3 hash (`mmh3.Hash32`, an external library) is a parameter
`hash : String → Nat` of the engines.
-/

/-- One configured retention (`shared.Retention`): the aggregation interval in
seconds. -/
structure Retention where
  interval : Nat
deriving DecidableEq, Repr

/-- The configuration fields the engines read. -/
structure Config where
  retentions : List Retention
deriving DecidableEq, Repr

/-- Go `heartbeatInterval` constant. -/
def heartbeatInterval : Nat := 1

/-- Go `maxSlots[i] = shared.Config.Retentions[i].Interval / heartbeatInterval`. -/
def maxSlots (r : Retention) : Nat := r.interval / heartbeatInterval

/-- A counter bucket `map[string]float64` as an association list. -/
def CBucket : Type := List (String × Rat)

/-- Go `counters[i][hashSlot][name] += value` (a missing key reads as 0). -/
def cbucketAdd : List (String × Rat) → String → Rat → List (String × Rat)
  | [], n, v => [(n, v)]
  | (k, w) :: rest, n, v =>
    if k = n then (k, w + v) :: rest else (k, w) :: cbucketAdd rest n v

/-- Value of `name` in a counter bucket (0 when absent, as in Go). -/
def cbucketGet (b : List (String × Rat)) (n : String) : Rat :=
  ((b.find? (fun kv => kv.1 == n)).map (fun kv => kv.2)).getD 0

/-- Per-retention counter state: Go's `currentSlots[i]` and `counters[i]`
(the ring of `maxSlots` buckets). -/
structure CWheel where
  currentSlot : Nat
  buckets : List (List (String × Rat))
deriving DecidableEq, Repr

/-- Initial per-retention counter state built in `processCounters` before the
event loop: slot 0, `maxSlots` empty buckets. -/
def initCWheel (r : Retention) : CWheel :=
  { currentSlot := 0, buckets := List.replicate (maxSlots r) [] }

/-- Initial counter-engine state (one wheel per retention). -/
def initCounterState (cfg : Config) : List CWheel :=
  cfg.retentions.map initCWheel

/-- Datapoint arm of `processCounters`' select loop, for one retention:
`hashSlot := hash(name) mod maxSlots[i]; counters[i][hashSlot][name] += value`. -/
def cwheelAdd (hash : String → Nat) (d : Datapoint) (r : Retention) (w : CWheel) : CWheel :=
  let hashSlot := hash d.name % maxSlots r
  { w with buckets := w.buckets.set hashSlot (cbucketAdd (w.buckets.getD hashSlot []) d.name d.value) }

/-- One emitted counter observation before sink formatting: the flushed
`(name, sum)` pair and the retention-aligned timestamp.  (The numeric value is
kept alongside the rendered payload so that sums of emitted values can be
stated; rendering to an `AggregateObservation` is `renderCounterObs`.) -/
structure CounterEmission where
  name : String
  value : Rat
  timestamp : Int
deriving DecidableEq, Repr

/-- Heartbeat arm of `processCounters` for one retention `i`:
`timestamp := now - now mod interval` (Go `%` on `int64` is truncated, hence
`Int.tmod`); every `(key, value)` of the current slot's bucket with
`value > 0` is emitted and deleted; entries with `value ≤ 0` stay; then the
slot pointer advances and wraps at `maxSlots`. -/
def cwheelHb (now : Int) (r : Retention) (w : CWheel) : CWheel × List CounterEmission :=
  let ts := now - Int.tmod now (r.interval : Int)
  let bucket := w.buckets.getD w.currentSlot []
  let flushed := bucket.filter (fun kv => decide (0 < kv.2))
  let kept := bucket.filter (fun kv => !(decide (0 < kv.2)))
  ({ currentSlot := if w.currentSlot + 1 = maxSlots r then 0 else w.currentSlot + 1,
     buckets := w.buckets.set w.currentSlot kept },
   flushed.map (fun kv => { name := kv.1, value := kv.2, timestamp := ts }))

/-- One step of the counter engine on a datapoint: Go iterates
`for i := range shared.Config.Retentions`. -/
def counterData (cfg : Config) (hash : String → Nat) (s : List CWheel) (d : Datapoint) :
    List CWheel :=
  List.zipWith (cwheelAdd hash d) cfg.retentions s

/-- One step of the counter engine on a heartbeat: Go iterates
`for i := range currentSlots` (ascending), flushing each retention's current
slot; the returned list is the per-retention emission batches in that order. -/
def counterHb (cfg : Config) (now : Int) (s : List CWheel) :
    List CWheel × List (List CounterEmission) :=
  (List.zipWith (cwheelHb now) cfg.retentions s).unzip

/-- One event consumed by a bucket-wheel engine: either a datapoint from its
queue or a heartbeat tick (carrying the `time.Now()` observed at that tick). -/
inductive WheelEvent
  | dp (d : Datapoint)
  | hb (now : Int)
deriving DecidableEq, Repr

/-- Number of heartbeat ticks in an event sequence. -/
def hbCount (events : List WheelEvent) : Nat :=
  (events.filter (fun e => match e with | WheelEvent.hb _ => true | _ => false)).length

/-- The counter engine's select loop over a sequence of events, collecting the
per-event emission batches (a datapoint event emits nothing). -/
def counterRun (cfg : Config) (hash : String → Nat) (s : List CWheel) :
    List WheelEvent → List CWheel × List (List (List CounterEmission))
  | [] => (s, [])
  | WheelEvent.dp d :: es =>
    let res := counterRun cfg hash (counterData cfg hash s d) es
    (res.1, [] :: res.2)
  | WheelEvent.hb now :: es =>
    let step := counterHb cfg now s
    let res := counterRun cfg hash step.1 es
    (res.1, step.2 :: res.2)

/-- A sink-ready record (struct `AggregateObservation`): Redis key / file
channel, rendered payload, timestamp. -/
structure AggregateObservation where
  name : String
  content : String
  timestamp : Int
deriving DecidableEq, Repr

/-- The two observation queues fed by the engines. -/
inductive Sink
  | redis
  | disk
deriving DecidableEq, Repr

/-- An observation together with the queue it was sent to. -/
structure Emission where
  sink : Sink
  obs : AggregateObservation
deriving DecidableEq, Repr

/-- Sink formatting of a flushed counter pair for retention index `i`
(`fmtV` renders a float64 like Go's `%v`):
retention 0 goes to Redis as `counters:<name>` / `<ts><X><value>`, the rest to
disk as `counters:<name>:<interval>` / `<ts> <value>\n`. -/
def renderCounterObs (cfg : Config) (fmtV : Rat → String) (i : Nat) (e : CounterEmission) :
    Emission :=
  if i = 0 then
    { sink := Sink.redis,
      obs := { name := "counters:" ++ e.name,
               content := toString e.timestamp ++ "<X>" ++ fmtV e.value,
               timestamp := e.timestamp } }
  else
    { sink := Sink.disk,
      obs := { name := "counters:" ++ e.name ++ ":" ++ toString (cfg.retentions.getD i ⟨0⟩).interval,
               content := toString e.timestamp ++ " " ++ fmtV e.value ++ "\n",
               timestamp := e.timestamp } }

/-! ### Timer engine -/

/-- Go `timers[i][hashSlot][name] = append(timers[i][hashSlot][name], value)`
(a missing key reads as the empty slice). -/
def tbucketAdd : List (String × List Rat) → String → Rat → List (String × List Rat)
  | [], n, v => [(n, [v])]
  | (k, ws) :: rest, n, v =>
    if k = n then (k, ws ++ [v]) :: rest else (k, ws) :: tbucketAdd rest n v

/-- Per-retention timer state (`currentSlots[i]`, `timers[i]`). -/
structure TWheel where
  currentSlot : Nat
  buckets : List (List (String × List Rat))
deriving DecidableEq, Repr

/-- Initial per-retention timer state. -/
def initTWheel (r : Retention) : TWheel :=
  { currentSlot := 0, buckets := List.replicate (maxSlots r) [] }

/-- Initial timer-engine state. -/
def initTimerState (cfg : Config) : List TWheel :=
  cfg.retentions.map initTWheel

/-- Datapoint arm of `processTimers` for one retention. -/
def twheelAdd (hash : String → Nat) (d : Datapoint) (r : Retention) (w : TWheel) : TWheel :=
  let hashSlot := hash d.name % maxSlots r
  { w with buckets := w.buckets.set hashSlot (tbucketAdd (w.buckets.getD hashSlot []) d.name d.value) }

/-! ### Statistics helpers of the `shared` package

`processTimers` calls `shared.Min`, `shared.Max`, `shared.Median`,
`shared.Mean`, `shared.Stddev`, `shared.Percentile`.  The `shared` package is
part of this repository but is not under `src/`, so these are modelled from
the spec (§4.6).  All are exact-rational; the standard deviation is carried as
its square (`sharedStddevSq`), since the square root of a rational is not
rational — the emitted stddev is `Real.sqrt` of it.
-/

/-- Modelled from the spec: `shared.Min` — the minimum of the samples
(0 on an empty slice, which `processTimers` never passes). -/
def sharedMin : List Rat → Rat
  | [] => 0
  | x :: xs => xs.foldl min x

/-- Modelled from the spec: `shared.Max` — the maximum of the samples. -/
def sharedMax : List Rat → Rat
  | [] => 0
  | x :: xs => xs.foldl max x

/-- Ascending sort used by the order statistics. -/
def sortedAsc (l : List Rat) : List Rat := List.insertionSort (· ≤ ·) l

/-- Modelled from the spec: `shared.Mean` — arithmetic mean. -/
def sharedMean (l : List Rat) : Rat := l.sum / (l.length : Rat)

/-- Modelled from the spec: `shared.Median` — middle element of the sorted
samples for odd length, arithmetic mean of the two middle elements for even
length. -/
def sharedMedian (l : List Rat) : Rat :=
  let s := sortedAsc l
  if l.length % 2 = 1 then s.getD (l.length / 2) 0
  else (s.getD (l.length / 2 - 1) 0 + s.getD (l.length / 2) 0) / 2

/-- Modelled from the spec: the square of `shared.Stddev` — the population
variance `Σ(x-mean)² / n`; `shared.Stddev` itself is its square root. -/
def sharedStddevSq (l : List Rat) : Rat :=
  ((l.map (fun x => (x - sharedMean l) ^ 2)).sum) / (l.length : Rat)

/-- Modelled from the spec: `shared.Percentile` — sort ascending and take the
element at 0-based index `ceil(p·n) - 1`, clamped to `[0, n-1]` (`Int.toNat`
realizes the clamp at 0). -/
def sharedPercentile (l : List Rat) (p : Rat) : Rat :=
  let s := sortedAsc l
  let idx : Int := Int.ceil (p * (l.length : Rat)) - 1
  s.getD (Int.toNat (min idx ((l.length : Int) - 1))) 0

/-- The nine aggregates `processTimers` renders as
`count/min/max/median/mean/stddev/p90/p95/p99` (stddev carried squared; the
`%v`-rendering of each number into the payload string is abstracted). -/
structure TimerAgg where
  count : Nat
  min : Rat
  max : Rat
  median : Rat
  mean : Rat
  stddevSq : Rat
  p90 : Rat
  p95 : Rat
  p99 : Rat
deriving DecidableEq, Repr

/-- The aggregate computation in the heartbeat arm of `processTimers`. -/
def timerAggOf (l : List Rat) : TimerAgg :=
  { count := l.length,
    min := sharedMin l,
    max := sharedMax l,
    median := sharedMedian l,
    mean := sharedMean l,
    stddevSq := sharedStddevSq l,
    p90 := sharedPercentile l (9 / 10),
    p95 := sharedPercentile l (95 / 100),
    p99 := sharedPercentile l (99 / 100) }

/-- One emitted timer observation before sink formatting. -/
structure TimerEmission where
  name : String
  agg : TimerAgg
  timestamp : Int
deriving DecidableEq, Repr

/-- Heartbeat arm of `processTimers` for one retention: every `(key, samples)`
of the current slot's bucket with `len(samples) > 0` is aggregated, emitted
and deleted; then the slot pointer advances and wraps. -/
def twheelHb (now : Int) (r : Retention) (w : TWheel) : TWheel × List TimerEmission :=
  let ts := now - Int.tmod now (r.interval : Int)
  let bucket := w.buckets.getD w.currentSlot []
  let flushed := bucket.filter (fun kv => decide (0 < kv.2.length))
  let kept := bucket.filter (fun kv => !(decide (0 < kv.2.length)))
  ({ currentSlot := if w.currentSlot + 1 = maxSlots r then 0 else w.currentSlot + 1,
     buckets := w.buckets.set w.currentSlot kept },
   flushed.map (fun kv => { name := kv.1, agg := timerAggOf kv.2, timestamp := ts }))

/-- One step of the timer engine on a datapoint. -/
def timerData (cfg : Config) (hash : String → Nat) (s : List TWheel) (d : Datapoint) :
    List TWheel :=
  List.zipWith (twheelAdd hash d) cfg.retentions s

/-- One step of the timer engine on a heartbeat. -/
def timerHb (cfg : Config) (now : Int) (s : List TWheel) :
    List TWheel × List (List TimerEmission) :=
  (List.zipWith (twheelHb now) cfg.retentions s).unzip

/-- The timer engine's select loop over a sequence of events. -/
def timerRun (cfg : Config) (hash : String → Nat) (s : List TWheel) :
    List WheelEvent → List TWheel × List (List (List TimerEmission))
  | [] => (s, [])
  | WheelEvent.dp d :: es =>
    let res := timerRun cfg hash (timerData cfg hash s d) es
    (res.1, [] :: res.2)
  | WheelEvent.hb now :: es =>
    let step := timerHb cfg now s
    let res := timerRun cfg hash step.1 es
    (res.1, step.2 :: res.2)

/-! ### Gauge engine -/

/-- Go `processGauges`: for each datapoint one observation
`{"gauges:" + name, Sprintf("%d %v\n", Timestamp.Unix(), Value), 0}` sent to
the disk-append channel; the engine keeps no state and takes no heartbeat. -/
def processGauges (fmtV : Rat → String) (gauges : List Datapoint) : List Emission :=
  gauges.map (fun d =>
    { sink := Sink.disk,
      obs := { name := "gauges:" ++ d.name,
               content := toString d.timestamp ++ " " ++ fmtV d.value ++ "\n",
               timestamp := 0 } })

/-! ## Historical sink writer (`appendToFile`, `saveNewDatapoints`)

The filesystem is a map from path to entry; an entry is either a regular file
(its contents) or `inaccessible`, standing for a path on which `os.OpenFile`
fails with an error other than `ENOENT` (e.g. a permission error).  The
external `shared.CalculateFilename(name, root)` resolver is a parameter
`resolve`.  A `panic` is `Except.error ()`.  Directory creation (`MkdirAll`)
has no observable effect in this model beyond file creation succeeding. -/

/-- A filesystem entry. -/
inductive FileEntry
  | file (content : String)
  | inaccessible
deriving DecidableEq, Repr

/-- Lookup of a path in the filesystem association list. -/
def fsLookup (fs : List (String × FileEntry)) (path : String) : Option FileEntry :=
  ((fs.find? (fun kv => kv.1 == path)).map (fun kv => kv.2))

/-- Set a path's entry (replace if present, else append). -/
def fsSet : List (String × FileEntry) → String → FileEntry → List (String × FileEntry)
  | [], p, e => [(p, e)]
  | (k, v) :: rest, p, e =>
    if k = p then (k, e) :: rest else (k, v) :: fsSet rest p e

/-- One iteration of `appendToFile`'s loop on one observation.  Returns the
new filesystem, the names sent to `saveNewDatapoints`' channel, and Go's
`newFile` flag; open failing other than with `ENOENT` panics.  On `ENOENT` the
file is created and the header line `v2 <channel>\n` is written before the
payload; otherwise the payload is appended. -/
def appendToFileStep (resolve : String → String) (fs : List (String × FileEntry))
    (obs : AggregateObservation) :
    Except Unit (List (String × FileEntry) × List String × Bool) :=
  let filename := resolve obs.name
  match fsLookup fs filename with
  | some (FileEntry.file c) =>
    Except.ok (fsSet fs filename (FileEntry.file (c ++ obs.content)), [], false)
  | some FileEntry.inaccessible => Except.error ()
  | none =>
    Except.ok (fsSet fs filename (FileEntry.file ("v2 " ++ obs.name ++ "\n" ++ obs.content)),
      [obs.name], true)

/-- The writer goroutine over a queue of observations: sequential processing,
collecting the registration sends; a panic kills the process (no further
observations are handled). -/
def appendToFileRun (resolve : String → String) (fs : List (String × FileEntry)) :
    List AggregateObservation → Except Unit (List (String × FileEntry) × List String)
  | [] => Except.ok (fs, [])
  | obs :: rest =>
    match appendToFileStep resolve fs obs with
    | Except.error () => Except.error ()
    | Except.ok (fs', reg, _) =>
      match appendToFileRun resolve fs' rest with
      | Except.error () => Except.error ()
      | Except.ok (fs'', regs) => Except.ok (fs'', reg ++ regs)

/-! ## Dispatcher-fed engine loop of the second source file (`processDatatype`)

`gobatsd.Metric` is an interface whose implementations live outside `src/`;
the model records the calls made on the metric objects (`Start`, `Update`)
and keeps the map's key set (creation order) as the state. -/

/-- A call on a `gobatsd.Metric` object. -/
inductive MetricCall
  | start (name : String)
  | update (name : String) (value : Rat)
deriving DecidableEq, Repr

/-- Go `processDatatype` draining its channel: a known name gets `Update`;
an unknown name gets a new metric, `Start`, insertion into the map, then
`Update`. -/
def processDatatypeGo (metrics : List String) :
    List Datapoint → List String × List MetricCall
  | [] => (metrics, [])
  | d :: rest =>
    if metrics.contains d.name then
      let res := processDatatypeGo metrics rest
      (res.1, MetricCall.update d.name d.value :: res.2)
    else
      let res := processDatatypeGo (metrics ++ [d.name]) rest
      (res.1, MetricCall.start d.name :: MetricCall.update d.name d.value :: res.2)

/-- `processDatatype` from its initial empty map. -/
def processDatatype (ds : List Datapoint) : List String × List MetricCall :=
  processDatatypeGo [] ds

/-! ## Theorems -/

/-- Retention-aligned timestamp: for a nonnegative clock and positive interval,
Go's `now - now % interval` (truncated `%`) is `floor(now / interval) * interval`. -/
theorem tmod_align (now b : Int) (hn : 0 ≤ now) (hb : 0 < b) :
    now - Int.tmod now b = b * Int.fdiv now b := by
  rw [Int.tmod_eq_emod hn (le_of_lt hb), Int.fdiv_eq_ediv _ (le_of_lt hb), Int.emod_def]
  ring

/-- C9: every gauge datapoint yields exactly one observation, sent only to the
historical (disk) sink, with channel `gauges:<name>` and payload
`<ingest_unix_seconds> <value>\n`; the output is a pointwise image of the
input (the engine keeps no state between datapoints and, by construction,
consumes no heartbeat events). -/
theorem gauge_passthrough (fmtV : Rat → String) (ds : List Datapoint) :
    processGauges fmtV ds =
      ds.map (fun d =>
        { sink := Sink.disk,
          obs := { name := "gauges:" ++ d.name,
                   content := toString d.timestamp ++ " " ++ fmtV d.value ++ "\n",
                   timestamp := 0 } }) ∧
    (processGauges fmtV ds).map (fun e => e.sink) = List.replicate ds.length Sink.disk ∧
    (processGauges fmtV ds).length = ds.length := by
  refine ⟨rfl, ?_, ?_⟩
  · induction ds with
    | nil => rfl
    | cons d rest ih => simpa [processGauges, List.replicate] using ih
  · simp [processGauges]

/-- Calls that are `Start(name)` for the given name. -/
def isStartFor (n : String) : MetricCall → Bool
  | MetricCall.start m => m == n
  | _ => false

/-- Projection of an `Update` call to its `(name, value)` argument pair. -/
def updatePair : MetricCall → Option (String × Rat)
  | MetricCall.update m v => some (m, v)
  | _ => none

theorem processDatatypeGo_nodup (ds : List Datapoint) (metrics : List String)
    (h : metrics.Nodup) : (processDatatypeGo metrics ds).1.Nodup := by
  induction ds generalizing metrics with
  | nil => exact h
  | cons d rest ih =>
    by_cases hc : d.name ∈ metrics
    · simpa [processDatatypeGo, hc] using ih metrics h
    · have h' : (metrics ++ [d.name]).Nodup := by
        rw [List.nodup_append]
        refine ⟨h, List.nodup_singleton _, ?_⟩
        intro a ha hb
        simp at hb
        rw [hb] at ha
        exact hc ha
      simpa [processDatatypeGo, hc] using ih (metrics ++ [d.name]) h'

theorem processDatatypeGo_starts (ds : List Datapoint) (metrics : List String) (n : String) :
    ((processDatatypeGo metrics ds).2.filter (isStartFor n)).length =
      if n ∈ metrics then 0
      else (if ds.any (fun d => d.name == n) then 1 else 0) := by
  induction ds generalizing metrics with
  | nil => simp [processDatatypeGo]
  | cons d rest ih =>
    by_cases hc : d.name ∈ metrics
    · have := ih metrics
      by_cases hdn : d.name = n
      · subst hdn
        simp [processDatatypeGo, hc, isStartFor, this]
      · simp [processDatatypeGo, hc, isStartFor, ih metrics, hdn, Ne.symm hdn,
          List.any_cons]
    · by_cases hdn : d.name = n
      · subst hdn
        have hmem : d.name ∈ metrics ++ [d.name] := by simp
        simp [processDatatypeGo, hc, isStartFor, ih (metrics ++ [d.name]), hmem]
      · have hmem : (n ∈ metrics ++ [d.name]) ↔ n ∈ metrics := by
          simp [Ne.symm hdn]
        simp [processDatatypeGo, hc, isStartFor, ih (metrics ++ [d.name]), hmem, hdn,
          Ne.symm hdn, List.any_cons]

theorem processDatatypeGo_updates (ds : List Datapoint) (metrics : List String) :
    (processDatatypeGo metrics ds).2.filterMap updatePair =
      ds.map (fun d => (d.name, d.value)) := by
  induction ds generalizing metrics with
  | nil => simp [processDatatypeGo]
  | cons d rest ih =>
    by_cases hc : d.name ∈ metrics <;>
      simp [processDatatypeGo, hc, updatePair, ih]

/-- C10: in `processDatatype` the metric map holds at most one Metric per
distinct name (its key list stays duplicate-free), `Start` is called exactly
once for each name that occurs (by its first datapoint) and never otherwise,
and every datapoint produces exactly one `Update` with its value, in order. -/
theorem processDatatype_metric_lifecycle (ds : List Datapoint) :
    (processDatatype ds).1.Nodup ∧
    (∀ n : String, (((processDatatype ds).2.filter (isStartFor n)).length =
      if ds.any (fun d => d.name == n) then 1 else 0)) ∧
    (processDatatype ds).2.filterMap updatePair = ds.map (fun d => (d.name, d.value)) := by
  refine ⟨processDatatypeGo_nodup ds [] List.nodup_nil, ?_, processDatatypeGo_updates ds []⟩
  intro n
  simpa using processDatatypeGo_starts ds [] n

/-! ### Access lemmas for the per-retention engine steps -/

theorem map_getD {α β : Type} (f : α → β) (l : List α) (i : Nat) (d : α) (db : β)
    (h : i < l.length) : (l.map f).getD i db = f (l.getD i d) := by
  induction l generalizing i with
  | nil => simp at h
  | cons x xs ih =>
    cases i with
    | zero => simp [List.getD]
    | succ j =>
      have h' : j < xs.length := by simpa using h
      simpa [List.getD] using ih j h'

theorem replicate_getD {α : Type} (m j : Nat) (a : α) : (List.replicate m a).getD j a = a := by
  induction m generalizing j with
  | zero => simp [List.getD]
  | succ m' ih =>
    cases j with
    | zero => simp [List.replicate, List.getD]
    | succ j' =>
      simp only [List.replicate, List.getD, List.getElem?_cons_succ]
      exact ih j'

theorem counterHb_out_getD (cfg : Config) (now : Int) (s : List CWheel) (i : Nat)
    (hi : i < cfg.retentions.length) (hs : i < s.length) :
    (counterHb cfg now s).2.getD i [] =
      (cwheelHb now (cfg.retentions.getD i ⟨0⟩) (s.getD i ⟨0, []⟩)).2 := by
  unfold counterHb
  rw [unzip_snd_eq, List.map_zipWith]
  exact zipWith_getD _ _ _ i ⟨0⟩ ⟨0, []⟩ _ hi hs

theorem counterHb_state_getD (cfg : Config) (now : Int) (s : List CWheel) (i : Nat)
    (hi : i < cfg.retentions.length) (hs : i < s.length) :
    (counterHb cfg now s).1.getD i ⟨0, []⟩ =
      (cwheelHb now (cfg.retentions.getD i ⟨0⟩) (s.getD i ⟨0, []⟩)).1 := by
  unfold counterHb
  rw [unzip_fst_eq, List.map_zipWith]
  exact zipWith_getD _ _ _ i ⟨0⟩ ⟨0, []⟩ _ hi hs

theorem counterData_getD (cfg : Config) (hash : String → Nat) (s : List CWheel)
    (d : Datapoint) (i : Nat) (hi : i < cfg.retentions.length) (hs : i < s.length) :
    (counterData cfg hash s d).getD i ⟨0, []⟩ =
      cwheelAdd hash d (cfg.retentions.getD i ⟨0⟩) (s.getD i ⟨0, []⟩) := by
  unfold counterData
  exact zipWith_getD _ _ _ i ⟨0⟩ ⟨0, []⟩ _ hi hs

theorem timerHb_out_getD (cfg : Config) (now : Int) (s : List TWheel) (i : Nat)
    (hi : i < cfg.retentions.length) (hs : i < s.length) :
    (timerHb cfg now s).2.getD i [] =
      (twheelHb now (cfg.retentions.getD i ⟨0⟩) (s.getD i ⟨0, []⟩)).2 := by
  unfold timerHb
  rw [unzip_snd_eq, List.map_zipWith]
  exact zipWith_getD _ _ _ i ⟨0⟩ ⟨0, []⟩ _ hi hs

theorem timerHb_state_getD (cfg : Config) (now : Int) (s : List TWheel) (i : Nat)
    (hi : i < cfg.retentions.length) (hs : i < s.length) :
    (timerHb cfg now s).1.getD i ⟨0, []⟩ =
      (twheelHb now (cfg.retentions.getD i ⟨0⟩) (s.getD i ⟨0, []⟩)).1 := by
  unfold timerHb
  rw [unzip_fst_eq, List.map_zipWith]
  exact zipWith_getD _ _ _ i ⟨0⟩ ⟨0, []⟩ _ hi hs

theorem timerData_getD (cfg : Config) (hash : String → Nat) (s : List TWheel)
    (d : Datapoint) (i : Nat) (hi : i < cfg.retentions.length) (hs : i < s.length) :
    (timerData cfg hash s d).getD i ⟨0, []⟩ =
      twheelAdd hash d (cfg.retentions.getD i ⟨0⟩) (s.getD i ⟨0, []⟩) := by
  unfold timerData
  exact zipWith_getD _ _ _ i ⟨0⟩ ⟨0, []⟩ _ hi hs

theorem counterData_length (cfg : Config) (hash : String → Nat) (s : List CWheel)
    (d : Datapoint) :
    (counterData cfg hash s d).length = min cfg.retentions.length s.length := by
  simp [counterData]

theorem counterHb_state_length (cfg : Config) (now : Int) (s : List CWheel) :
    (counterHb cfg now s).1.length = min cfg.retentions.length s.length := by
  unfold counterHb
  rw [unzip_fst_eq, List.length_map, List.length_zipWith]

theorem timerData_length (cfg : Config) (hash : String → Nat) (s : List TWheel)
    (d : Datapoint) :
    (timerData cfg hash s d).length = min cfg.retentions.length s.length := by
  simp [timerData]

theorem timerHb_state_length (cfg : Config) (now : Int) (s : List TWheel) :
    (timerHb cfg now s).1.length = min cfg.retentions.length s.length := by
  unfold timerHb
  rw [unzip_fst_eq, List.length_map, List.length_zipWith]

/-- C2: on a heartbeat tick, for retention `i`, the counter engine emits one
observation per `(name, sum)` pair of the current slot's bucket with
`sum > 0` (and none for pairs with `sum ≤ 0`), timestamped
`floor(now/interval)·interval`; rendered, retention 0 goes to the recent
(Redis) sink as `counters:<name>` with payload `<ts><X><sum>`, other
retentions to the historical (disk) sink as `counters:<name>:<interval>` with
payload `<ts> <sum>` plus newline. -/
theorem counter_heartbeat_emission (cfg : Config) (fmtV : Rat → String) (now : Int)
    (s : List CWheel) (i : Nat) (r : Retention) (w : CWheel)
    (hi : i < cfg.retentions.length) (hs : i < s.length)
    (hr : cfg.retentions.getD i ⟨0⟩ = r) (hw : s.getD i ⟨0, []⟩ = w)
    (hnow : 0 ≤ now) (hiv : 0 < r.interval) :
    (counterHb cfg now s).2.getD i [] =
      ((w.buckets.getD w.currentSlot []).filter (fun kv => decide (0 < kv.2))).map
        (fun kv => ⟨kv.1, kv.2, (r.interval : Int) * Int.fdiv now (r.interval : Int)⟩) ∧
    ((counterHb cfg now s).2.getD i []).map (renderCounterObs cfg fmtV i) =
      ((w.buckets.getD w.currentSlot []).filter (fun kv => decide (0 < kv.2))).map
        (fun kv =>
          if i = 0 then
            { sink := Sink.redis,
              obs := { name := "counters:" ++ kv.1,
                       content := toString ((r.interval : Int) * Int.fdiv now (r.interval : Int))
                         ++ "<X>" ++ fmtV kv.2,
                       timestamp := (r.interval : Int) * Int.fdiv now (r.interval : Int) } }
          else
            { sink := Sink.disk,
              obs := { name := "counters:" ++ kv.1 ++ ":" ++ toString r.interval,
                       content := toString ((r.interval : Int) * Int.fdiv now (r.interval : Int))
                         ++ " " ++ fmtV kv.2 ++ "\n",
                       timestamp := (r.interval : Int) * Int.fdiv now (r.interval : Int) } }) := by
  have hout := counterHb_out_getD cfg now s i hi hs
  rw [hr, hw] at hout
  have hts : now - Int.tmod now (r.interval : Int) =
      (r.interval : Int) * Int.fdiv now (r.interval : Int) := by
    apply tmod_align now _ hnow
    exact_mod_cast hiv
  have h1 : (counterHb cfg now s).2.getD i [] =
      ((w.buckets.getD w.currentSlot []).filter (fun kv => decide (0 < kv.2))).map
        (fun kv => ⟨kv.1, kv.2, (r.interval : Int) * Int.fdiv now (r.interval : Int)⟩) := by
    rw [hout]
    unfold cwheelHb
    simp only [hts]
  refine ⟨h1, ?_⟩
  rw [h1, List.map_map]
  apply List.map_congr_left
  intro kv _
  have hr' : cfg.retentions[i]?.getD ⟨0⟩ = r := by
    rw [← List.getD_eq_getElem?_getD]
    exact hr
  by_cases hi0 : i = 0 <;> simp [renderCounterObs, hi0, hr']

/-- Witness for `counter_heartbeat_emission`: one retention of 10 s, a bucket
holding `("a", 3)` in the current slot, heartbeat at `now = 25`; the flushed
observation is `("a", 3)` at the aligned timestamp 20. -/
theorem counter_heartbeat_emission_witness :
    (counterHb ⟨[⟨10⟩]⟩ 25 [⟨0, [[("a", 3)], [], [], [], [], [], [], [], [], []]⟩]).2.getD 0 [] =
      [⟨"a", 3, 20⟩] := by
  have h := (counter_heartbeat_emission ⟨[⟨10⟩]⟩ (fun _ => "") 25
      [⟨0, [[("a", 3)], [], [], [], [], [], [], [], [], []]⟩] 0 ⟨10⟩
      ⟨0, [[("a", 3)], [], [], [], [], [], [], [], [], []]⟩
      (by decide) (by decide) rfl rfl (by decide) (by decide)).1
  rw [h]
  decide

/-! ### Slot-pointer dynamics -/

theorem slot_step_mod (m cur : Nat) (h : cur < m) :
    (if cur + 1 = m then 0 else cur + 1) = (cur + 1) % m := by
  by_cases h1 : cur + 1 = m
  · rw [if_pos h1, h1, Nat.mod_self]
  · rw [if_neg h1, Nat.mod_eq_of_lt]
    exact lt_of_le_of_ne h h1

theorem hbCount_nil : hbCount [] = 0 := rfl

theorem hbCount_dp (d : Datapoint) (es : List WheelEvent) :
    hbCount (WheelEvent.dp d :: es) = hbCount es := by
  simp [hbCount]

theorem hbCount_hb (t : Int) (es : List WheelEvent) :
    hbCount (WheelEvent.hb t :: es) = hbCount es + 1 := by
  simp [hbCount, List.filter]

theorem hbCount_replicate_hb (k : Nat) (t : Int) :
    hbCount (List.replicate k (WheelEvent.hb t)) = k := by
  induction k with
  | zero => rfl
  | succ k' ih => simpa [List.replicate, hbCount_hb] using ih

theorem counterRun_slot (cfg : Config) (hash : String → Nat) (events : List WheelEvent)
    (s : List CWheel) (i : Nat) (hi : i < cfg.retentions.length) (hs : i < s.length)
    (hm : 0 < maxSlots (cfg.retentions.getD i ⟨0⟩))
    (hcur : (s.getD i ⟨0, []⟩).currentSlot < maxSlots (cfg.retentions.getD i ⟨0⟩)) :
    ((counterRun cfg hash s events).1.getD i ⟨0, []⟩).currentSlot =
      ((s.getD i ⟨0, []⟩).currentSlot + hbCount events) % maxSlots (cfg.retentions.getD i ⟨0⟩) := by
  induction events generalizing s with
  | nil =>
    simp only [counterRun, hbCount_nil, Nat.add_zero]
    exact (Nat.mod_eq_of_lt hcur).symm
  | cons e es ih =>
    cases e with
    | dp d =>
      have hs' : i < (counterData cfg hash s d).length := by
        rw [counterData_length]
        exact lt_min hi hs
      have hg := counterData_getD cfg hash s d i hi hs
      have hslot : ((counterData cfg hash s d).getD i ⟨0, []⟩).currentSlot =
          (s.getD i ⟨0, []⟩).currentSlot := by
        rw [hg]; rfl
      simp only [counterRun, hbCount_dp]
      rw [ih (counterData cfg hash s d) hs' (by rw [hslot]; exact hcur), hslot]
    | hb now =>
      have hs' : i < (counterHb cfg now s).1.length := by
        rw [counterHb_state_length]
        exact lt_min hi hs
      have hg := counterHb_state_getD cfg now s i hi hs
      have hslot : ((counterHb cfg now s).1.getD i ⟨0, []⟩).currentSlot =
          ((s.getD i ⟨0, []⟩).currentSlot + 1) % maxSlots (cfg.retentions.getD i ⟨0⟩) := by
        rw [hg]
        show (if (s.getD i ⟨0, []⟩).currentSlot + 1 = maxSlots (cfg.retentions.getD i ⟨0⟩)
          then 0 else (s.getD i ⟨0, []⟩).currentSlot + 1) = _
        exact slot_step_mod _ _ hcur
      simp only [counterRun, hbCount_hb]
      rw [ih (counterHb cfg now s).1 hs' (by rw [hslot]; exact Nat.mod_lt _ hm), hslot,
        Nat.mod_add_mod]
      ring_nf

theorem timerRun_slot (cfg : Config) (hash : String → Nat) (events : List WheelEvent)
    (s : List TWheel) (i : Nat) (hi : i < cfg.retentions.length) (hs : i < s.length)
    (hm : 0 < maxSlots (cfg.retentions.getD i ⟨0⟩))
    (hcur : (s.getD i ⟨0, []⟩).currentSlot < maxSlots (cfg.retentions.getD i ⟨0⟩)) :
    ((timerRun cfg hash s events).1.getD i ⟨0, []⟩).currentSlot =
      ((s.getD i ⟨0, []⟩).currentSlot + hbCount events) % maxSlots (cfg.retentions.getD i ⟨0⟩) := by
  induction events generalizing s with
  | nil =>
    simp only [timerRun, hbCount_nil, Nat.add_zero]
    exact (Nat.mod_eq_of_lt hcur).symm
  | cons e es ih =>
    cases e with
    | dp d =>
      have hs' : i < (timerData cfg hash s d).length := by
        rw [timerData_length]
        exact lt_min hi hs
      have hg := timerData_getD cfg hash s d i hi hs
      have hslot : ((timerData cfg hash s d).getD i ⟨0, []⟩).currentSlot =
          (s.getD i ⟨0, []⟩).currentSlot := by
        rw [hg]; rfl
      simp only [timerRun, hbCount_dp]
      rw [ih (timerData cfg hash s d) hs' (by rw [hslot]; exact hcur), hslot]
    | hb now =>
      have hs' : i < (timerHb cfg now s).1.length := by
        rw [timerHb_state_length]
        exact lt_min hi hs
      have hg := timerHb_state_getD cfg now s i hi hs
      have hslot : ((timerHb cfg now s).1.getD i ⟨0, []⟩).currentSlot =
          ((s.getD i ⟨0, []⟩).currentSlot + 1) % maxSlots (cfg.retentions.getD i ⟨0⟩) := by
        rw [hg]
        show (if (s.getD i ⟨0, []⟩).currentSlot + 1 = maxSlots (cfg.retentions.getD i ⟨0⟩)
          then 0 else (s.getD i ⟨0, []⟩).currentSlot + 1) = _
        exact slot_step_mod _ _ hcur
      simp only [timerRun, hbCount_hb]
      rw [ih (timerHb cfg now s).1 hs' (by rw [hslot]; exact Nat.mod_lt _ hm), hslot,
        Nat.mod_add_mod]
      ring_nf

theorem initCounterState_getD (cfg : Config) (i : Nat) (hi : i < cfg.retentions.length) :
    (initCounterState cfg).getD i ⟨0, []⟩ = initCWheel (cfg.retentions.getD i ⟨0⟩) := by
  unfold initCounterState
  exact map_getD _ _ i ⟨0⟩ _ hi

theorem initTimerState_getD (cfg : Config) (i : Nat) (hi : i < cfg.retentions.length) :
    (initTimerState cfg).getD i ⟨0, []⟩ = initTWheel (cfg.retentions.getD i ⟨0⟩) := by
  unfold initTimerState
  exact map_getD _ _ i ⟨0⟩ _ hi

/-- C6: for both engines and every retention, the current-slot pointer starts
at 0 (inside `[0, slots)`), advances by exactly one per heartbeat wrapping
modulo `slots` (datapoint events leave it unchanged), visits pairwise distinct
slots on the first `slots` heartbeats, and is back at its initial value after
exactly `slots` heartbeats. -/
theorem slot_cycling (cfg : Config) (hash : String → Nat) (i : Nat) (events : List WheelEvent)
    (hi : i < cfg.retentions.length) (hm : 0 < maxSlots (cfg.retentions.getD i ⟨0⟩)) :
    (((initCounterState cfg).getD i ⟨0, []⟩).currentSlot = 0 ∧
      ((counterRun cfg hash (initCounterState cfg) events).1.getD i ⟨0, []⟩).currentSlot =
        hbCount events % maxSlots (cfg.retentions.getD i ⟨0⟩)) ∧
    (((initTimerState cfg).getD i ⟨0, []⟩).currentSlot = 0 ∧
      ((timerRun cfg hash (initTimerState cfg) events).1.getD i ⟨0, []⟩).currentSlot =
        hbCount events % maxSlots (cfg.retentions.getD i ⟨0⟩)) ∧
    (∀ k1 k2 : Nat, k1 < k2 → k2 < maxSlots (cfg.retentions.getD i ⟨0⟩) →
      ((counterRun cfg hash (initCounterState cfg)
          (List.replicate k1 (WheelEvent.hb 0))).1.getD i ⟨0, []⟩).currentSlot ≠
        ((counterRun cfg hash (initCounterState cfg)
          (List.replicate k2 (WheelEvent.hb 0))).1.getD i ⟨0, []⟩).currentSlot) ∧
    ((counterRun cfg hash (initCounterState cfg)
        (List.replicate (maxSlots (cfg.retentions.getD i ⟨0⟩))
          (WheelEvent.hb 0))).1.getD i ⟨0, []⟩).currentSlot =
      ((initCounterState cfg).getD i ⟨0, []⟩).currentSlot := by
  have hcz : ((initCounterState cfg).getD i ⟨0, []⟩).currentSlot = 0 := by
    rw [initCounterState_getD cfg i hi]; rfl
  have htz : ((initTimerState cfg).getD i ⟨0, []⟩).currentSlot = 0 := by
    rw [initTimerState_getD cfg i hi]; rfl
  have hlen : i < (initCounterState cfg).length := by
    simpa [initCounterState] using hi
  have htlen : i < (initTimerState cfg).length := by
    simpa [initTimerState] using hi
  have hrun : ∀ evs : List WheelEvent,
      ((counterRun cfg hash (initCounterState cfg) evs).1.getD i ⟨0, []⟩).currentSlot =
        hbCount evs % maxSlots (cfg.retentions.getD i ⟨0⟩) := by
    intro evs
    have := counterRun_slot cfg hash evs (initCounterState cfg) i hi hlen hm
      (by rw [hcz]; exact hm)
    rwa [hcz, Nat.zero_add] at this
  refine ⟨⟨hcz, hrun events⟩, ⟨htz, ?_⟩, ?_, ?_⟩
  · have := timerRun_slot cfg hash events (initTimerState cfg) i hi htlen hm
      (by rw [htz]; exact hm)
    rwa [htz, Nat.zero_add] at this
  · intro k1 k2 h12 h2m
    rw [hrun _, hrun _, hbCount_replicate_hb, hbCount_replicate_hb,
      Nat.mod_eq_of_lt (lt_trans h12 h2m), Nat.mod_eq_of_lt h2m]
    omega
  · rw [hrun _, hbCount_replicate_hb, Nat.mod_self, hcz]

/-- Witness for `slot_cycling`: one retention of 2 s; after three heartbeats
the counter engine's slot pointer is at `3 % 2 = 1`, and after two heartbeats
it is back at 0. -/
theorem slot_cycling_witness :
    ((counterRun ⟨[⟨2⟩]⟩ (fun _ => 0) (initCounterState ⟨[⟨2⟩]⟩)
        [WheelEvent.hb 0, WheelEvent.hb 1, WheelEvent.hb 2]).1.getD 0 ⟨0, []⟩).currentSlot =
      3 % 2 ∧
    ((counterRun ⟨[⟨2⟩]⟩ (fun _ => 0) (initCounterState ⟨[⟨2⟩]⟩)
        (List.replicate (maxSlots ⟨2⟩) (WheelEvent.hb 0))).1.getD 0 ⟨0, []⟩).currentSlot =
      ((initCounterState ⟨[⟨2⟩]⟩).getD 0 ⟨0, []⟩).currentSlot := by
  constructor
  · exact (slot_cycling ⟨[⟨2⟩]⟩ (fun _ => 0) 0
      [WheelEvent.hb 0, WheelEvent.hb 1, WheelEvent.hb 2] (by decide) (by decide)).1.2
  · exact (slot_cycling ⟨[⟨2⟩]⟩ (fun _ => 0) 0 [] (by decide) (by decide)).2.2.2

/-- C4 counterexample: with one 1-second retention, the datapoint `a:0|c`
(value 0, a line the grammar accepts) leaves `("a", 0)` in the slot; after the
heartbeat flush and slot advance the vacated bucket still contains the key
`("a", 0)` — it is not empty, contradicting the claim that the bucket is
cleared regardless of the accumulated value. -/
theorem bucket_cleared_counterexample :
    ((counterRun ⟨[⟨1⟩]⟩ (fun _ => 0) (initCounterState ⟨[⟨1⟩]⟩)
        [WheelEvent.dp ⟨0, "a", 0, "c"⟩, WheelEvent.hb 0]).1.getD 0
          ⟨0, []⟩).buckets.getD 0 [] = [("a", 0)] ∧
    ([("a", (0 : Rat))] : List (String × Rat)) ≠ [] := by
  constructor
  · rfl
  · decide

/-- C4 amended: after a heartbeat flush, the vacated slot's bucket retains
exactly the entries the flush skipped — counter keys with accumulated sum ≤ 0
and timer keys with an empty sample list; every key with positive sum
(respectively a nonempty sample list) is removed, so the bucket is empty
whenever all its accumulators were positive (nonempty), but not in general. -/
theorem bucket_flush_keeps_skipped (cfg : Config) (now : Int)
    (s : List CWheel) (t : List TWheel) (i : Nat)
    (hi : i < cfg.retentions.length) (hs : i < s.length) (ht : i < t.length) :
    (((counterHb cfg now s).1.getD i ⟨0, []⟩).buckets.getD
        (s.getD i ⟨0, []⟩).currentSlot []
      = ((s.getD i ⟨0, []⟩).buckets.getD (s.getD i ⟨0, []⟩).currentSlot []).filter
          (fun kv => !(decide (0 < kv.2))) ∧
     ((∀ kv ∈ (s.getD i ⟨0, []⟩).buckets.getD (s.getD i ⟨0, []⟩).currentSlot [], 0 < kv.2) →
      ((counterHb cfg now s).1.getD i ⟨0, []⟩).buckets.getD
        (s.getD i ⟨0, []⟩).currentSlot [] = [])) ∧
    (((timerHb cfg now t).1.getD i ⟨0, []⟩).buckets.getD
        (t.getD i ⟨0, []⟩).currentSlot []
      = ((t.getD i ⟨0, []⟩).buckets.getD (t.getD i ⟨0, []⟩).currentSlot []).filter
          (fun kv => !(decide (0 < kv.2.length))) ∧
     ((∀ kv ∈ (t.getD i ⟨0, []⟩).buckets.getD (t.getD i ⟨0, []⟩).currentSlot [],
        kv.2 ≠ []) →
      ((timerHb cfg now t).1.getD i ⟨0, []⟩).buckets.getD
        (t.getD i ⟨0, []⟩).currentSlot [] = [])) := by
  have hc : ((counterHb cfg now s).1.getD i ⟨0, []⟩).buckets.getD
      (s.getD i ⟨0, []⟩).currentSlot []
      = ((s.getD i ⟨0, []⟩).buckets.getD (s.getD i ⟨0, []⟩).currentSlot []).filter
          (fun kv => !(decide (0 < kv.2))) := by
    rw [counterHb_state_getD cfg now s i hi hs]
    show ((s.getD i ⟨0, []⟩).buckets.set (s.getD i ⟨0, []⟩).currentSlot _).getD
        (s.getD i ⟨0, []⟩).currentSlot [] = _
    rw [getD_set_self]
    split
    · rfl
    · rename_i hlen
      have : (s.getD i ⟨0, []⟩).buckets.getD (s.getD i ⟨0, []⟩).currentSlot [] = [] := by
        rw [List.getD_eq_getElem?_getD, List.getElem?_eq_none (by omega)]
        rfl
      rw [this]
      rfl
  have htm : ((timerHb cfg now t).1.getD i ⟨0, []⟩).buckets.getD
      (t.getD i ⟨0, []⟩).currentSlot []
      = ((t.getD i ⟨0, []⟩).buckets.getD (t.getD i ⟨0, []⟩).currentSlot []).filter
          (fun kv => !(decide (0 < kv.2.length))) := by
    rw [timerHb_state_getD cfg now t i hi ht]
    show ((t.getD i ⟨0, []⟩).buckets.set (t.getD i ⟨0, []⟩).currentSlot _).getD
        (t.getD i ⟨0, []⟩).currentSlot [] = _
    rw [getD_set_self]
    split
    · rfl
    · rename_i hlen
      have : (t.getD i ⟨0, []⟩).buckets.getD (t.getD i ⟨0, []⟩).currentSlot [] = [] := by
        rw [List.getD_eq_getElem?_getD, List.getElem?_eq_none (by omega)]
        rfl
      rw [this]
      rfl
  refine ⟨⟨hc, ?_⟩, htm, ?_⟩
  · intro hall
    rw [hc, List.filter_eq_nil_iff]
    intro kv hkv
    simp [hall kv hkv]
  · intro hall
    rw [htm, List.filter_eq_nil_iff]
    intro kv hkv
    have := hall kv hkv
    simp [List.length_pos.2 this]

/-- Witness for `bucket_flush_keeps_skipped`: a 2-slot wheel whose current
slot holds `("a", 3)` (positive) and `("b", 0)`; the flush keeps exactly
`("b", 0)`, and a bucket of only-positive entries is fully cleared. -/
theorem bucket_flush_keeps_skipped_witness :
    ((counterHb ⟨[⟨2⟩]⟩ 0 [⟨0, [[("a", 3), ("b", 0)], []]⟩]).1.getD 0
        ⟨0, []⟩).buckets.getD 0 [] = [("b", 0)] ∧
    ((timerHb ⟨[⟨2⟩]⟩ 0 [⟨0, [[("a", [1, 2])], []]⟩]).1.getD 0
        ⟨0, []⟩).buckets.getD 0 [] = [] := by
  constructor
  · have h := (bucket_flush_keeps_skipped ⟨[⟨2⟩]⟩ 0 [⟨0, [[("a", 3), ("b", 0)], []]⟩]
      [⟨0, [[("a", [1, 2])], []]⟩] 0 (by decide) (by decide) (by decide)).1.1
    exact h.trans (by decide)
  · exact (bucket_flush_keeps_skipped ⟨[⟨2⟩]⟩ 0 [⟨0, [[("a", 3), ("b", 0)], []]⟩]
      [⟨0, [[("a", [1, 2])], []]⟩] 0 (by decide) (by decide) (by decide)).2.2 (by decide)

/-! ### Order statistics facts -/

theorem foldlMin_mem (xs : List Rat) (x : Rat) : xs.foldl min x ∈ x :: xs := by
  induction xs generalizing x with
  | nil => simp
  | cons y ys ih =>
    simp only [List.foldl_cons]
    have h := ih (min x y)
    rcases List.mem_cons.1 h with h1 | h1
    · rcases min_choice x y with h2 | h2 <;> rw [h1, h2]
      · exact List.mem_cons_self _ _
      · exact List.mem_cons_of_mem _ (List.mem_cons_self _ _)
    · exact List.mem_cons_of_mem _ (List.mem_cons_of_mem _ h1)

theorem foldlMin_le (xs : List Rat) (x : Rat) : ∀ y ∈ x :: xs, xs.foldl min x ≤ y := by
  induction xs generalizing x with
  | nil =>
    intro y hy
    simp at hy
    simp [hy]
  | cons z zs ih =>
    intro y hy
    simp only [List.foldl_cons]
    rcases List.mem_cons.1 hy with h1 | h1
    · calc zs.foldl min (min x z) ≤ min x z :=
            ih (min x z) (min x z) (List.mem_cons_self _ _)
        _ ≤ x := min_le_left _ _
        _ = y := h1.symm
    · rcases List.mem_cons.1 h1 with h2 | h2
      · calc zs.foldl min (min x z) ≤ min x z :=
              ih (min x z) (min x z) (List.mem_cons_self _ _)
          _ ≤ z := min_le_right _ _
          _ = y := h2.symm
      · exact ih (min x z) y (List.mem_cons_of_mem _ h2)

theorem foldlMax_mem (xs : List Rat) (x : Rat) : xs.foldl max x ∈ x :: xs := by
  induction xs generalizing x with
  | nil => simp
  | cons y ys ih =>
    simp only [List.foldl_cons]
    have h := ih (max x y)
    rcases List.mem_cons.1 h with h1 | h1
    · rcases max_choice x y with h2 | h2 <;> rw [h1, h2]
      · exact List.mem_cons_self _ _
      · exact List.mem_cons_of_mem _ (List.mem_cons_self _ _)
    · exact List.mem_cons_of_mem _ (List.mem_cons_of_mem _ h1)

theorem le_foldlMax (xs : List Rat) (x : Rat) : ∀ y ∈ x :: xs, y ≤ xs.foldl max x := by
  induction xs generalizing x with
  | nil =>
    intro y hy
    simp at hy
    simp [hy]
  | cons z zs ih =>
    intro y hy
    simp only [List.foldl_cons]
    rcases List.mem_cons.1 hy with h1 | h1
    · calc y = x := h1
        _ ≤ max x z := le_max_left _ _
        _ ≤ zs.foldl max (max x z) := ih (max x z) (max x z) (List.mem_cons_self _ _)
    · rcases List.mem_cons.1 h1 with h2 | h2
      · calc y = z := h2
          _ ≤ max x z := le_max_right _ _
          _ ≤ zs.foldl max (max x z) := ih (max x z) (max x z) (List.mem_cons_self _ _)
      · exact ih (max x z) y (List.mem_cons_of_mem _ h2)

/-- C5: for a nonempty sample list `S` the flushed timer aggregate consists of
`count = |S|`, the true minimum and maximum of `S`, the spec's median (middle
element of sorted `S`, or the mean of the two middle elements), the arithmetic
mean, the population standard deviation `sqrt(Σ(x-mean)²/n)` (carried as its
square), and percentiles at sorted 0-based index `ceil(p·n)-1` clamped to
`[0, n-1]` for `p ∈ {0.9, 0.95, 0.99}`; and the timer heartbeat emits exactly
these aggregates for every nonempty bucket entry. -/
theorem timer_flush_aggregates (S : List Rat) (now : Int) (r : Retention) (w : TWheel)
    (hS : S ≠ []) :
    (timerAggOf S).count = S.length ∧
    ((timerAggOf S).min ∈ S ∧ ∀ x ∈ S, (timerAggOf S).min ≤ x) ∧
    ((timerAggOf S).max ∈ S ∧ ∀ x ∈ S, x ≤ (timerAggOf S).max) ∧
    (timerAggOf S).median =
      (if S.length % 2 = 1 then (sortedAsc S).getD (S.length / 2) 0
       else ((sortedAsc S).getD (S.length / 2 - 1) 0 + (sortedAsc S).getD (S.length / 2) 0) / 2) ∧
    (timerAggOf S).mean = S.sum / (S.length : Rat) ∧
    (timerAggOf S).stddevSq =
      ((S.map (fun x => (x - S.sum / (S.length : Rat)) ^ 2)).sum) / (S.length : Rat) ∧
    Real.sqrt ((timerAggOf S).stddevSq : Real) =
      Real.sqrt (((((S.map (fun x => (x - S.sum / (S.length : Rat)) ^ 2)).sum) /
        (S.length : Rat) : Rat) : Real)) ∧
    (timerAggOf S).p90 = (sortedAsc S).getD
      (Int.toNat (min (Int.ceil ((9 / 10 : Rat) * (S.length : Rat)) - 1)
        ((S.length : Int) - 1))) 0 ∧
    (timerAggOf S).p95 = (sortedAsc S).getD
      (Int.toNat (min (Int.ceil ((95 / 100 : Rat) * (S.length : Rat)) - 1)
        ((S.length : Int) - 1))) 0 ∧
    (timerAggOf S).p99 = (sortedAsc S).getD
      (Int.toNat (min (Int.ceil ((99 / 100 : Rat) * (S.length : Rat)) - 1)
        ((S.length : Int) - 1))) 0 ∧
    (twheelHb now r w).2 =
      ((w.buckets.getD w.currentSlot []).filter (fun kv => decide (0 < kv.2.length))).map
        (fun kv => ⟨kv.1, timerAggOf kv.2, now - Int.tmod now (r.interval : Int)⟩) := by
  obtain ⟨x, xs, rfl⟩ : ∃ x xs, S = x :: xs := by
    cases S with
    | nil => exact absurd rfl hS
    | cons x xs => exact ⟨x, xs, rfl⟩
  refine ⟨rfl, ⟨?_, ?_⟩, ⟨?_, ?_⟩, ?_, rfl, ?_, ?_, rfl, rfl, rfl, rfl⟩
  · exact foldlMin_mem xs x
  · exact foldlMin_le xs x
  · exact foldlMax_mem xs x
  · exact le_foldlMax xs x
  · rfl
  · simp [timerAggOf, sharedStddevSq, sharedMean]
  · simp [timerAggOf, sharedStddevSq, sharedMean]

/-- Witness for `timer_flush_aggregates` at `S = [10, 20, 30]`. -/
theorem timer_flush_aggregates_witness :
    (timerAggOf [10, 20, 30]).count = 3 ∧
    (timerAggOf [10, 20, 30]).min ∈ ([10, 20, 30] : List Rat) ∧
    (timerAggOf [10, 20, 30]).mean = ([10, 20, 30] : List Rat).sum / 3 := by
  refine ⟨?_, ?_, ?_⟩
  · exact (timer_flush_aggregates [10, 20, 30] 0 ⟨10⟩ ⟨0, []⟩ (by decide)).1
  · exact (timer_flush_aggregates [10, 20, 30] 0 ⟨10⟩ ⟨0, []⟩ (by decide)).2.1.1
  · exact (timer_flush_aggregates [10, 20, 30] 0 ⟨10⟩ ⟨0, []⟩ (by decide)).2.2.2.2.1

/-! ### Filesystem lemmas for the historical writer -/

theorem strFoldl_append (l : List String) (a b : String) :
    l.foldl (fun r s => r ++ s) (a ++ b) = a ++ l.foldl (fun r s => r ++ s) b := by
  induction l generalizing b with
  | nil => rfl
  | cons x xs ih =>
    simp only [List.foldl_cons]
    rw [String.append_assoc]
    exact ih (b ++ x)

theorem stringJoin_cons (x : String) (l : List String) :
    String.join (x :: l) = x ++ String.join l := by
  show l.foldl (fun r s => r ++ s) ("" ++ x) = x ++ l.foldl (fun r s => r ++ s) ""
  rw [show ("" ++ x) = (x ++ "") by simp]
  exact strFoldl_append l x ""

theorem fsLookup_fsSet_self (fs : List (String × FileEntry)) (p : String) (e : FileEntry) :
    fsLookup (fsSet fs p e) p = some e := by
  induction fs with
  | nil => simp [fsSet, fsLookup]
  | cons kv rest ih =>
    cases kv with
    | mk k v =>
      by_cases h : k = p
      · subst h
        simp [fsSet, fsLookup]
      · simp only [fsSet, if_neg h]
        unfold fsLookup
        rw [List.find?_cons_of_neg _ (by simpa using h)]
        exact ih

theorem fsLookup_fsSet_other (fs : List (String × FileEntry)) (p q : String) (e : FileEntry)
    (h : p ≠ q) : fsLookup (fsSet fs p e) q = fsLookup fs q := by
  induction fs with
  | nil =>
    show fsLookup [(p, e)] q = fsLookup [] q
    unfold fsLookup
    rw [List.find?_cons_of_neg _ (by simpa using h)]
  | cons kv rest ih =>
    cases kv with
    | mk k v =>
      by_cases hk : k = p
      · subst hk
        have hset : fsSet ((k, v) :: rest) k e = (k, e) :: rest := by
          simp [fsSet]
        rw [hset]
        unfold fsLookup
        rw [List.find?_cons_of_neg _ (by simpa using h),
          List.find?_cons_of_neg _ (by simpa using h)]
      · simp only [fsSet, if_neg hk]
        by_cases hq : k = q
        · subst hq
          unfold fsLookup
          rw [List.find?_cons_of_pos _ (by simp), List.find?_cons_of_pos _ (by simp)]
        · unfold fsLookup
          rw [List.find?_cons_of_neg _ (by simpa using hq),
            List.find?_cons_of_neg _ (by simpa using hq)]
          exact ih

theorem noInacc_fsSet (fs : List (String × FileEntry)) (q : String) (c : String)
    (hacc : ∀ p, fsLookup fs p ≠ some FileEntry.inaccessible) :
    ∀ p, fsLookup (fsSet fs q (FileEntry.file c)) p ≠ some FileEntry.inaccessible := by
  intro p
  by_cases h : q = p
  · subst h
    rw [fsLookup_fsSet_self]
    simp
  · rw [fsLookup_fsSet_other fs q p _ h]
    exact hacc p

theorem appendToFileRun_spec (resolve : String → String)
    (hinj : ∀ a b, resolve a = resolve b → a = b)
    (obss : List AggregateObservation) (fs : List (String × FileEntry))
    (hacc : ∀ p, fsLookup fs p ≠ some FileEntry.inaccessible) (n : String) :
    ∃ fs1 regs, appendToFileRun resolve fs obss = Except.ok (fs1, regs) ∧
      (∀ p, fsLookup fs1 p ≠ some FileEntry.inaccessible) ∧
      (fsLookup fs (resolve n) = none →
        regs.count n = (if obss.any (fun o => o.name == n) then 1 else 0) ∧
        (obss.any (fun o => o.name == n) = true →
          fsLookup fs1 (resolve n) = some (FileEntry.file ("v2 " ++ n ++ "\n" ++
            String.join ((obss.filter (fun o => o.name == n)).map (fun o => o.content))))) ∧
        (obss.any (fun o => o.name == n) = false → fsLookup fs1 (resolve n) = none)) ∧
      (∀ c, fsLookup fs (resolve n) = some (FileEntry.file c) →
        regs.count n = 0 ∧
        fsLookup fs1 (resolve n) = some (FileEntry.file (c ++
          String.join ((obss.filter (fun o => o.name == n)).map (fun o => o.content))))) := by
  induction obss generalizing fs with
  | nil =>
    refine ⟨fs, [], rfl, hacc, ?_, ?_⟩
    · intro hnone
      refine ⟨by simp, ?_, fun _ => hnone⟩
      intro h
      simp at h
    · intro c hc
      refine ⟨by simp, ?_⟩
      rw [hc]
      have : c ++ String.join [] = c := by
        show c ++ "" = c
        simp
      rw [List.filter_nil, List.map_nil, this]
  | cons obs rest ih =>
    cases hop : fsLookup fs (resolve obs.name) with
    | some e =>
      cases e with
      | inaccessible => exact absurd hop (hacc _)
      | file c0 =>
        have hacc' := noInacc_fsSet fs (resolve obs.name) (c0 ++ obs.content) hacc
        obtain ⟨fs1, regs, hrun, hacc1, hnone, hfile⟩ :=
          ih (fsSet fs (resolve obs.name) (FileEntry.file (c0 ++ obs.content))) hacc'
        refine ⟨fs1, regs, ?_, hacc1, ?_, ?_⟩
        · simp only [appendToFileRun, appendToFileStep, hop, hrun]
          rfl
        · intro hnone0
          have hne : obs.name ≠ n := by
            intro heq
            rw [heq] at hop
            rw [hop] at hnone0
            cases hnone0
          have hres : resolve obs.name ≠ resolve n := fun hr => hne (hinj _ _ hr)
          have hnone' : fsLookup (fsSet fs (resolve obs.name)
              (FileEntry.file (c0 ++ obs.content))) (resolve n) = none := by
            rw [fsLookup_fsSet_other _ _ _ _ hres]
            exact hnone0
          obtain ⟨hcount, hyes, hno⟩ := hnone hnone'
          have hbne : (obs.name == n) = false := by simpa using hne
          refine ⟨?_, ?_, ?_⟩
          · rw [hcount]
            simp [List.any_cons, hbne]
          · intro hany
            have : rest.any (fun o => o.name == n) = true := by
              simpa [List.any_cons, hbne] using hany
            rw [hyes this]
            simp [List.filter_cons, hbne]
          · intro hany
            have : rest.any (fun o => o.name == n) = false := by
              simpa [List.any_cons, hbne] using hany
            exact hno this
        · intro c hc
          by_cases hne : obs.name = n
          · subst hne
            rw [hop] at hc
            have hc0 : c0 = c := by
              injection hc with h1
              injection h1
            subst hc0
            obtain ⟨hcount, hcontent⟩ := hfile (c0 ++ obs.content) (fsLookup_fsSet_self _ _ _)
            refine ⟨hcount, ?_⟩
            rw [hcontent, List.filter_cons_of_pos (by simp), List.map_cons, stringJoin_cons]
            simp [String.append_assoc]
          · have hres : resolve obs.name ≠ resolve n := fun hr => hne (hinj _ _ hr)
            have hfs' : fsLookup (fsSet fs (resolve obs.name)
                (FileEntry.file (c0 ++ obs.content))) (resolve n) =
                some (FileEntry.file c) := by
              rw [fsLookup_fsSet_other _ _ _ _ hres]
              exact hc
            obtain ⟨hcount, hcontent⟩ := hfile c hfs'
            refine ⟨hcount, ?_⟩
            rw [hcontent, List.filter_cons_of_neg (by simpa using hne)]
    | none =>
      have hacc' := noInacc_fsSet fs (resolve obs.name)
        ("v2 " ++ obs.name ++ "\n" ++ obs.content) hacc
      obtain ⟨fs1, regs, hrun, hacc1, hnone, hfile⟩ :=
        ih (fsSet fs (resolve obs.name)
          (FileEntry.file ("v2 " ++ obs.name ++ "\n" ++ obs.content))) hacc'
      refine ⟨fs1, obs.name :: regs, ?_, hacc1, ?_, ?_⟩
      · simp only [appendToFileRun, appendToFileStep, hop, hrun]
        rfl
      · intro hnone0
        by_cases hne : obs.name = n
        · subst hne
          obtain ⟨hcount, hcontent⟩ :=
            hfile ("v2 " ++ obs.name ++ "\n" ++ obs.content) (fsLookup_fsSet_self _ _ _)
          refine ⟨?_, ?_, ?_⟩
          · rw [List.count_cons]
            simp [hcount, List.any_cons]
          · intro _
            rw [hcontent, List.filter_cons_of_pos (by simp), List.map_cons, stringJoin_cons]
            simp [String.append_assoc]
          · intro hany
            simp [List.any_cons] at hany
        · have hres : resolve obs.name ≠ resolve n := fun hr => hne (hinj _ _ hr)
          have hnone' : fsLookup (fsSet fs (resolve obs.name)
              (FileEntry.file ("v2 " ++ obs.name ++ "\n" ++ obs.content))) (resolve n) = none := by
            rw [fsLookup_fsSet_other _ _ _ _ hres]
            exact hnone0
          obtain ⟨hcount, hyes, hno⟩ := hnone hnone'
          have hbne : (obs.name == n) = false := by simpa using hne
          refine ⟨?_, ?_, ?_⟩
          · rw [List.count_cons]
            simp [hcount, List.any_cons, hbne, hne]
          · intro hany
            have : rest.any (fun o => o.name == n) = true := by
              simpa [List.any_cons, hbne] using hany
            rw [hyes this]
            simp [List.filter_cons, hbne]
          · intro hany
            have : rest.any (fun o => o.name == n) = false := by
              simpa [List.any_cons, hbne] using hany
            exact hno this
      · intro c hc
        have hne : obs.name ≠ n := by
          intro heq
          rw [heq] at hop
          rw [hop] at hc
          cases hc
        have hres : resolve obs.name ≠ resolve n := fun hr => hne (hinj _ _ hr)
        have hfs' : fsLookup (fsSet fs (resolve obs.name)
            (FileEntry.file ("v2 " ++ obs.name ++ "\n" ++ obs.content))) (resolve n) =
            some (FileEntry.file c) := by
          rw [fsLookup_fsSet_other _ _ _ _ hres]
          exact hc
        obtain ⟨hcount, hcontent⟩ := hfile c hfs'
        have hbne : (obs.name == n) = false := by simpa using hne
        refine ⟨?_, ?_⟩
        · rw [List.count_cons]
          simp [hcount, hne]
        · rw [hcontent, List.filter_cons_of_neg (by simpa using hne)]

/-- C8: opening a path whose entry is inaccessible (any open error other than
ENOENT) panics the writer; an absent path (ENOENT) leads to creation of the
file with the header `v2 <channel>\n` written first, Go's `newFile` flag set,
and a single registration send; and over a whole error-free run with an
injective filename resolver, a fresh metric name is registered exactly once
and its file's contents are the header followed by its payloads in order
(the header occurs once, as the first line). -/
theorem historical_writer_contract (resolve : String → String)
    (hinj : ∀ a b, resolve a = resolve b → a = b)
    (fs : List (String × FileEntry))
    (hacc : ∀ p, fsLookup fs p ≠ some FileEntry.inaccessible)
    (obss : List AggregateObservation) (n : String)
    (hfresh : fsLookup fs (resolve n) = none)
    (hocc : obss.any (fun o => o.name == n) = true) :
    (∀ (obs : AggregateObservation) (fs' : List (String × FileEntry)),
        fsLookup fs' (resolve obs.name) = some FileEntry.inaccessible →
        appendToFileStep resolve fs' obs = Except.error ()) ∧
    (∀ (obs : AggregateObservation) (fs' : List (String × FileEntry)),
        fsLookup fs' (resolve obs.name) = none →
        appendToFileStep resolve fs' obs = Except.ok
          (fsSet fs' (resolve obs.name)
            (FileEntry.file ("v2 " ++ obs.name ++ "\n" ++ obs.content)), [obs.name], true)) ∧
    (∃ fs1 regs, appendToFileRun resolve fs obss = Except.ok (fs1, regs) ∧
      regs.count n = 1 ∧
      fsLookup fs1 (resolve n) = some (FileEntry.file ("v2 " ++ n ++ "\n" ++
        String.join ((obss.filter (fun o => o.name == n)).map (fun o => o.content))))) := by
  refine ⟨?_, ?_, ?_⟩
  · intro obs fs' h
    simp [appendToFileStep, h]
  · intro obs fs' h
    simp [appendToFileStep, h]
  · obtain ⟨fs1, regs, hrun, _, hfreshcase, _⟩ :=
      appendToFileRun_spec resolve hinj obss fs hacc n
    obtain ⟨hcount, hyes, _⟩ := hfreshcase hfresh
    exact ⟨fs1, regs, hrun, by rw [hcount, if_pos hocc], hyes hocc⟩

/-- Witness for `historical_writer_contract`: identity resolver, empty
filesystem, two observations for channel `counters:a:60`; the registry
receives the channel once and the file holds the header plus both payloads. -/
theorem historical_writer_contract_witness :
    ∃ fs1 regs,
      appendToFileRun id []
        [⟨"counters:a:60", "0 2\n", 0⟩, ⟨"counters:a:60", "60 3\n", 60⟩] =
          Except.ok (fs1, regs) ∧
      regs.count "counters:a:60" = 1 ∧
      fsLookup fs1 (id "counters:a:60") = some (FileEntry.file ("v2 " ++ "counters:a:60" ++
        "\n" ++ String.join ((([⟨"counters:a:60", "0 2\n", 0⟩,
          ⟨"counters:a:60", "60 3\n", 60⟩] : List AggregateObservation).filter
            (fun o => o.name == "counters:a:60")).map (fun o => o.content)))) :=
  (historical_writer_contract id (fun a b h => h) [] (fun p => by simp [fsLookup])
    [⟨"counters:a:60", "0 2\n", 0⟩, ⟨"counters:a:60", "60 3\n", 60⟩]
    "counters:a:60" rfl (by decide)).2.2

/-! ### Counter-sum conservation (C7)

For a fixed retention `i` and metric name `n`, every datapoint for `n` lands
in the single slot `hash(n) mod maxSlots[i]`; a heartbeat either flushes that
accumulator (emitting its value and zeroing it) or leaves it alone.  Emitted
plus pending therefore equals the input sum exactly, and the pending residue
is precisely the one-slot contribution the claim allows as error. -/

theorem cbucketGet_nil (n : String) : cbucketGet [] n = 0 := rfl

theorem cbucketGet_cons (k : String) (v : Rat) (rest : List (String × Rat)) (n : String) :
    cbucketGet ((k, v) :: rest) n = if k = n then v else cbucketGet rest n := by
  by_cases h : k = n
  · simp [cbucketGet, List.find?, h]
  · unfold cbucketGet
    rw [List.find?_cons_of_neg _ (by simpa using h), if_neg h]

theorem cbucketAdd_get (b : List (String × Rat)) (k n : String) (v : Rat) :
    cbucketGet (cbucketAdd b k v) n = cbucketGet b n + (if k = n then v else 0) := by
  induction b with
  | nil =>
    rw [show cbucketAdd [] k v = [(k, v)] from rfl, cbucketGet_cons, cbucketGet_nil]
    by_cases h : k = n <;> simp [h]
  | cons kv rest ih =>
    cases kv with
    | mk k0 w =>
      by_cases h0 : k0 = k
      · subst h0
        rw [show cbucketAdd ((k0, w) :: rest) k0 v = (k0, w + v) :: rest from by
          simp [cbucketAdd]]
        rw [cbucketGet_cons, cbucketGet_cons]
        by_cases hn : k0 = n
        · simp [hn]
        · simp [hn]
      · rw [show cbucketAdd ((k0, w) :: rest) k v = (k0, w) :: cbucketAdd rest k v from by
          simp [cbucketAdd, h0]]
        rw [cbucketGet_cons, cbucketGet_cons]
        by_cases hn : k0 = n
        · subst hn
          have hkn : ¬(k = k0) := fun hh => h0 hh.symm
          simp [hkn]
        · simp [hn, ih]

theorem cbucketGet_of_not_mem (b : List (String × Rat)) (n : String)
    (h : n ∉ b.map Prod.fst) : cbucketGet b n = 0 := by
  induction b with
  | nil => rfl
  | cons kv rest ih =>
    cases kv with
    | mk k v =>
      simp only [List.map_cons, List.mem_cons] at h
      push_neg at h
      rw [cbucketGet_cons, if_neg (fun hh => h.1 hh.symm)]
      exact ih h.2

theorem cbucketAdd_keys (b : List (String × Rat)) (k : String) (v : Rat) :
    (cbucketAdd b k v).map Prod.fst =
      if k ∈ b.map Prod.fst then b.map Prod.fst else b.map Prod.fst ++ [k] := by
  induction b with
  | nil => simp [cbucketAdd]
  | cons kv rest ih =>
    cases kv with
    | mk k0 w =>
      by_cases h0 : k0 = k
      · subst h0
        rw [show cbucketAdd ((k0, w) :: rest) k0 v = (k0, w + v) :: rest from by
          simp [cbucketAdd]]
        simp
      · rw [show cbucketAdd ((k0, w) :: rest) k v = (k0, w) :: cbucketAdd rest k v from by
          simp [cbucketAdd, h0]]
        simp only [List.map_cons, ih]
        by_cases hmem : k ∈ rest.map Prod.fst
        · rw [if_pos hmem, if_pos (by simp [hmem])]
        · rw [if_neg hmem, if_neg (by simp [hmem, Ne.symm h0])]
          simp

/-- Sum of the values the heartbeat flush emits for name `n` out of bucket
`b`. -/
def flushSumB (b : List (String × Rat)) (n : String) : Rat :=
  (((b.filter (fun kv => decide (0 < kv.2))).filter (fun kv => kv.1 == n)).map
    (fun kv => kv.2)).sum

theorem flushSumB_of_not_mem (b : List (String × Rat)) (n : String)
    (h : n ∉ b.map Prod.fst) : flushSumB b n = 0 := by
  induction b with
  | nil => rfl
  | cons kv rest ih =>
    cases kv with
    | mk k v =>
      simp only [List.map_cons, List.mem_cons] at h
      push_neg at h
      have hkn : (k == n) = false := by
        simp
        exact fun hh => h.1 hh.symm
      unfold flushSumB
      by_cases hv : (0 : Rat) < v
      · rw [List.filter_cons_of_pos (by simpa using hv), List.filter_cons_of_neg (by simp [hkn])]
        exact ih h.2
      · rw [List.filter_cons_of_neg (by simpa using hv)]
        exact ih h.2

theorem flushSumB_eq (b : List (String × Rat)) (n : String)
    (hnd : (b.map Prod.fst).Nodup) :
    flushSumB b n = if 0 < cbucketGet b n then cbucketGet b n else 0 := by
  induction b with
  | nil => simp [flushSumB, cbucketGet_nil]
  | cons kv rest ih =>
    cases kv with
    | mk k v =>
      simp only [List.map_cons, List.nodup_cons] at hnd
      rw [cbucketGet_cons]
      by_cases hkn : k = n
      · subst hkn
        have hrest0 : cbucketGet rest k = 0 := cbucketGet_of_not_mem rest k hnd.1
        have hfl0 : flushSumB rest k = 0 := flushSumB_of_not_mem rest k hnd.1
        unfold flushSumB
        unfold flushSumB at hfl0
        by_cases hv : (0 : Rat) < v
        · rw [List.filter_cons_of_pos (by simpa using hv),
            List.filter_cons_of_pos (by simp)]
          simp only [List.map_cons, List.sum_cons]
          rw [hfl0]
          simp [hv]
        · rw [List.filter_cons_of_neg (by simpa using hv), hfl0]
          simp [hv]
      · have hres := ih hnd.2
        unfold flushSumB
        by_cases hv : (0 : Rat) < v
        · rw [List.filter_cons_of_pos (by simpa using hv),
            List.filter_cons_of_neg (by simpa using hkn), if_neg hkn]
          exact hres
        · rw [List.filter_cons_of_neg (by simpa using hv), if_neg hkn]
          exact hres

theorem keptGet_eq (b : List (String × Rat)) (n : String)
    (hnd : (b.map Prod.fst).Nodup) :
    cbucketGet (b.filter (fun kv => !(decide (0 < kv.2)))) n =
      if 0 < cbucketGet b n then 0 else cbucketGet b n := by
  induction b with
  | nil => simp [cbucketGet_nil]
  | cons kv rest ih =>
    cases kv with
    | mk k v =>
      simp only [List.map_cons, List.nodup_cons] at hnd
      rw [cbucketGet_cons]
      by_cases hkn : k = n
      · subst hkn
        have hrest0 : cbucketGet rest k = 0 := cbucketGet_of_not_mem rest k hnd.1
        have hkept0 : cbucketGet (rest.filter (fun kv => !(decide (0 < kv.2)))) k = 0 := by
          apply cbucketGet_of_not_mem
          intro hmem
          apply hnd.1
          rcases List.mem_map.1 hmem with ⟨kv', hkv', hfst⟩
          exact List.mem_map.2 ⟨kv', List.mem_of_mem_filter hkv', hfst⟩
        by_cases hv : (0 : Rat) < v
        · rw [List.filter_cons_of_neg (by simp [hv])]
          simp [hv, hkept0]
        · rw [List.filter_cons_of_pos (by simp [hv]), cbucketGet_cons]
          simp [hv]
      · have hres := ih hnd.2
        by_cases hv : (0 : Rat) < v
        · rw [List.filter_cons_of_neg (by simpa using hv), if_neg hkn]
          exact hres
        · rw [List.filter_cons_of_pos (by simpa using hv), cbucketGet_cons, if_neg hkn,
            if_neg hkn]
          exact hres

/-- Well-formedness of one counter wheel for slot count `m` and hash `hash`:
the ring has `m` buckets, each bucket's key list is duplicate-free, and a
name's entries live only in its hash slot. -/
def CWFw (m : Nat) (hash : String → Nat) (w : CWheel) : Prop :=
  w.buckets.length = m ∧
  (∀ j, ((w.buckets.getD j []).map Prod.fst).Nodup) ∧
  (∀ j n, n ∈ (w.buckets.getD j []).map Prod.fst → j = hash n % m)

theorem initCWheel_WF (r : Retention) (hash : String → Nat) :
    CWFw (maxSlots r) hash (initCWheel r) := by
  refine ⟨by simp [initCWheel], ?_, ?_⟩
  · intro j
    show (((List.replicate (maxSlots r) []).getD j []).map Prod.fst).Nodup
    rw [replicate_getD]
    exact List.nodup_nil
  · intro j n h
    rw [show (initCWheel r).buckets = List.replicate (maxSlots r) [] from rfl,
      replicate_getD] at h
    simp at h

theorem cwheelAdd_residue (hash : String → Nat) (d : Datapoint) (r : Retention) (w : CWheel)
    (n : String) (hm : 0 < maxSlots r) (hlen : w.buckets.length = maxSlots r) :
    cbucketGet ((cwheelAdd hash d r w).buckets.getD (hash n % maxSlots r) []) n =
      cbucketGet (w.buckets.getD (hash n % maxSlots r) []) n +
        (if d.name = n then d.value else 0) := by
  unfold cwheelAdd
  by_cases hdn : d.name = n
  · subst hdn
    rw [getD_set_self, if_pos (by rw [hlen]; exact Nat.mod_lt _ hm)]
    rw [cbucketAdd_get]
  · by_cases hslot : hash d.name % maxSlots r = hash n % maxSlots r
    · rw [hslot, getD_set_self, if_pos (by rw [hlen]; exact Nat.mod_lt _ hm)]
      rw [cbucketAdd_get, if_neg hdn]
    · rw [getD_set_other _ _ _ _ _ hslot, if_neg hdn, add_zero]

theorem cwheelAdd_WF (hash : String → Nat) (d : Datapoint) (r : Retention) (w : CWheel)
    (hwf : CWFw (maxSlots r) hash w) : CWFw (maxSlots r) hash (cwheelAdd hash d r w) := by
  obtain ⟨hlen, hnd, hloc⟩ := hwf
  refine ⟨by simp [cwheelAdd, hlen], ?_, ?_⟩
  · intro j
    unfold cwheelAdd
    by_cases hj : hash d.name % maxSlots r = j
    · rw [hj, getD_set_self]
      split
      · rw [cbucketAdd_keys]
        split
        · exact hnd _
        · rw [List.nodup_append]
          refine ⟨hnd _, List.nodup_singleton _, ?_⟩
          intro a ha hb
          simp at hb
          rw [hb] at ha
          rename_i hmem
          exact hmem ha
      · exact List.nodup_nil
    · rw [getD_set_other _ _ _ _ _ hj]
      exact hnd j
  · intro j n hn
    unfold cwheelAdd at hn
    by_cases hj : hash d.name % maxSlots r = j
    · rw [hj, getD_set_self] at hn
      split at hn
      · rw [cbucketAdd_keys] at hn
        split at hn
        · exact hloc j n hn
        · rcases List.mem_append.1 hn with hmem | hmem
          · exact hloc j n hmem
          · simp at hmem
            rw [hmem]
            exact hj.symm
      · simp at hn
    · rw [getD_set_other _ _ _ _ _ hj] at hn
      exact hloc j n hn

theorem cwheelHb_emSum (now : Int) (r : Retention) (w : CWheel) (n : String) :
    ((((cwheelHb now r w).2).filter (fun e => e.name == n)).map (fun e => e.value)).sum =
      flushSumB (w.buckets.getD w.currentSlot []) n := by
  unfold flushSumB
  show (((((w.buckets.getD w.currentSlot []).filter (fun kv => decide (0 < kv.2))).map
    (fun kv => CounterEmission.mk kv.1 kv.2
      (now - Int.tmod now (r.interval : Int)))).filter
      (fun e => e.name == n)).map (fun e => e.value)).sum = _
  generalize (w.buckets.getD w.currentSlot []).filter (fun kv => decide (0 < kv.2)) = l
  induction l with
  | nil => rfl
  | cons kv t ih =>
    by_cases h : (kv.1 == n) = true
    · simp [List.filter_cons, h, ih]
    · simp [List.filter_cons, h, ih]

theorem cwheelHb_balance (now : Int) (r : Retention) (w : CWheel) (n : String)
    (hash : String → Nat) (hwf : CWFw (maxSlots r) hash w) :
    ((((cwheelHb now r w).2).filter (fun e => e.name == n)).map (fun e => e.value)).sum +
      cbucketGet ((cwheelHb now r w).1.buckets.getD (hash n % maxSlots r) []) n =
      cbucketGet (w.buckets.getD (hash n % maxSlots r) []) n := by
  obtain ⟨hlen, hnd, hloc⟩ := hwf
  rw [cwheelHb_emSum]
  by_cases hcur : w.currentSlot = hash n % maxSlots r
  · rw [← hcur]
    rw [flushSumB_eq _ _ (hnd _)]
    have hkept : (cwheelHb now r w).1.buckets.getD w.currentSlot [] =
        (w.buckets.getD w.currentSlot []).filter (fun kv => !(decide (0 < kv.2))) := by
      show (w.buckets.set w.currentSlot _).getD w.currentSlot [] = _
      rw [getD_set_self]
      split
      · rfl
      · rename_i hout
        rw [List.getD_eq_getElem?_getD, List.getElem?_eq_none (by omega)]
        rfl
    rw [hkept, keptGet_eq _ _ (hnd _)]
    split <;> simp
  · have hne : n ∉ (w.buckets.getD w.currentSlot []).map Prod.fst := by
      intro hmem
      exact hcur (hloc _ n hmem)
    rw [flushSumB_of_not_mem _ _ hne]
    have hother : (cwheelHb now r w).1.buckets.getD (hash n % maxSlots r) [] =
        w.buckets.getD (hash n % maxSlots r) [] := by
      show (w.buckets.set w.currentSlot _).getD (hash n % maxSlots r) [] = _
      exact getD_set_other _ _ _ _ _ hcur
    rw [hother, zero_add]

theorem cwheelHb_WF (now : Int) (r : Retention) (w : CWheel) (hash : String → Nat)
    (hwf : CWFw (maxSlots r) hash w) : CWFw (maxSlots r) hash (cwheelHb now r w).1 := by
  obtain ⟨hlen, hnd, hloc⟩ := hwf
  have hkeys : ∀ j, ((cwheelHb now r w).1.buckets.getD j []).map Prod.fst = [] ∨
      ∀ n, n ∈ ((cwheelHb now r w).1.buckets.getD j []).map Prod.fst →
        n ∈ (w.buckets.getD j []).map Prod.fst := by
    intro j
    by_cases hj : w.currentSlot = j
    · subst hj
      right
      intro n hn
      show n ∈ _
      have : (cwheelHb now r w).1.buckets.getD w.currentSlot [] =
          (if w.currentSlot < w.buckets.length then
            (w.buckets.getD w.currentSlot []).filter (fun kv => !(decide (0 < kv.2)))
          else []) := by
        show (w.buckets.set w.currentSlot _).getD w.currentSlot [] = _
        rw [getD_set_self]
      rw [this] at hn
      split at hn
      · rcases List.mem_map.1 hn with ⟨kv, hkv, hfst⟩
        exact List.mem_map.2 ⟨kv, List.mem_of_mem_filter hkv, hfst⟩
      · simp at hn
    · right
      intro n hn
      have : (cwheelHb now r w).1.buckets.getD j [] = w.buckets.getD j [] := by
        show (w.buckets.set w.currentSlot _).getD j [] = _
        exact getD_set_other _ _ _ _ _ hj
      rw [this] at hn
      exact hn
  refine ⟨?_, ?_, ?_⟩
  · show (w.buckets.set w.currentSlot _).length = maxSlots r
    rw [List.length_set]
    exact hlen
  · intro j
    rcases hkeys j with h | h
    · rw [h]
      exact List.nodup_nil
    · by_cases hj : w.currentSlot = j
      · subst hj
        have : (cwheelHb now r w).1.buckets.getD w.currentSlot [] =
            (if w.currentSlot < w.buckets.length then
              (w.buckets.getD w.currentSlot []).filter (fun kv => !(decide (0 < kv.2)))
            else []) := by
          show (w.buckets.set w.currentSlot _).getD w.currentSlot [] = _
          rw [getD_set_self]
        rw [this]
        split
        · have hsub : ((w.buckets.getD w.currentSlot []).filter
              (fun kv => !(decide (0 < kv.2)))).map Prod.fst |>.Sublist
              ((w.buckets.getD w.currentSlot []).map Prod.fst) :=
            List.Sublist.map Prod.fst (List.filter_sublist _)
          exact (hnd _).sublist hsub
        · exact List.nodup_nil
      · have : (cwheelHb now r w).1.buckets.getD j [] = w.buckets.getD j [] := by
          show (w.buckets.set w.currentSlot _).getD j [] = _
          exact getD_set_other _ _ _ _ _ hj
        rw [this]
        exact hnd j
  · intro j n hn
    rcases hkeys j with h | h
    · rw [h] at hn
      simp at hn
    · exact hloc j n (h n hn)

/-- Total of the counter values emitted for retention `i` and name `n` over a
run's trace. -/
def emittedSum (out : List (List (List CounterEmission))) (i : Nat) (n : String) : Rat :=
  (out.map (fun batches =>
    (((batches.getD i []).filter (fun e => e.name == n)).map (fun e => e.value)).sum)).sum

/-- Total of the datapoint values for name `n` in an event sequence. -/
def inputSum (events : List WheelEvent) (n : String) : Rat :=
  (events.filterMap (fun e => match e with
    | WheelEvent.dp d => if d.name = n then some d.value else none
    | WheelEvent.hb _ => none)).sum

/-- The accumulator still pending for name `n` in retention `i`'s wheel: the
value under `n` in the single slot `hash(n) mod maxSlots[i]` (one slot's
contribution). -/
def residue (cfg : Config) (hash : String → Nat) (s : List CWheel) (i : Nat) (n : String) :
    Rat :=
  cbucketGet ((s.getD i ⟨0, []⟩).buckets.getD
    (hash n % maxSlots (cfg.retentions.getD i ⟨0⟩)) []) n

theorem emittedSum_nil (i : Nat) (n : String) : emittedSum [] i n = 0 := rfl

theorem emittedSum_cons (batches : List (List CounterEmission))
    (out : List (List (List CounterEmission))) (i : Nat) (n : String) :
    emittedSum (batches :: out) i n =
      (((batches.getD i []).filter (fun e => e.name == n)).map (fun e => e.value)).sum +
        emittedSum out i n := by
  simp [emittedSum]

theorem inputSum_dp (d : Datapoint) (es : List WheelEvent) (n : String) :
    inputSum (WheelEvent.dp d :: es) n =
      (if d.name = n then d.value else 0) + inputSum es n := by
  by_cases h : d.name = n <;> simp [inputSum, List.filterMap_cons, h]

theorem inputSum_hb (t : Int) (es : List WheelEvent) (n : String) :
    inputSum (WheelEvent.hb t :: es) n = inputSum es n := by
  simp [inputSum, List.filterMap_cons]

theorem counterRun_conservation_aux (cfg : Config) (hash : String → Nat)
    (events : List WheelEvent) (s : List CWheel) (i : Nat) (n : String)
    (hi : i < cfg.retentions.length) (hs : i < s.length)
    (hm : 0 < maxSlots (cfg.retentions.getD i ⟨0⟩))
    (hwf : CWFw (maxSlots (cfg.retentions.getD i ⟨0⟩)) hash (s.getD i ⟨0, []⟩)) :
    emittedSum (counterRun cfg hash s events).2 i n +
      residue cfg hash (counterRun cfg hash s events).1 i n =
      residue cfg hash s i n + inputSum events n := by
  induction events generalizing s with
  | nil =>
    show emittedSum [] i n + residue cfg hash s i n = residue cfg hash s i n + inputSum [] n
    rw [emittedSum_nil]
    show 0 + _ = _ + 0
    rw [zero_add, add_zero]
  | cons e es ih =>
    cases e with
    | dp d =>
      have hs' : i < (counterData cfg hash s d).length := by
        rw [counterData_length]
        exact lt_min hi hs
      have hg := counterData_getD cfg hash s d i hi hs
      have hwf' : CWFw (maxSlots (cfg.retentions.getD i ⟨0⟩)) hash
          ((counterData cfg hash s d).getD i ⟨0, []⟩) := by
        rw [hg]
        exact cwheelAdd_WF hash d _ _ hwf
      have hres : residue cfg hash (counterData cfg hash s d) i n =
          residue cfg hash s i n + (if d.name = n then d.value else 0) := by
        unfold residue
        rw [hg]
        exact cwheelAdd_residue hash d _ _ n hm hwf.1
      show emittedSum ([] :: (counterRun cfg hash (counterData cfg hash s d) es).2) i n +
        residue cfg hash (counterRun cfg hash (counterData cfg hash s d) es).1 i n = _
      rw [emittedSum_cons, inputSum_dp]
      have hz : (((([] : List (List CounterEmission)).getD i []).filter
          (fun e => e.name == n)).map (fun e => e.value)).sum = 0 := by
        rw [List.getD_eq_getElem?_getD]
        simp
      rw [hz, zero_add, ih (counterData cfg hash s d) hs' hwf', hres]
      ring
    | hb now =>
      have hs' : i < (counterHb cfg now s).1.length := by
        rw [counterHb_state_length]
        exact lt_min hi hs
      have hgs := counterHb_state_getD cfg now s i hi hs
      have hgo := counterHb_out_getD cfg now s i hi hs
      have hwf' : CWFw (maxSlots (cfg.retentions.getD i ⟨0⟩)) hash
          ((counterHb cfg now s).1.getD i ⟨0, []⟩) := by
        rw [hgs]
        exact cwheelHb_WF now _ _ hash hwf
      have hbal : ((((counterHb cfg now s).2.getD i []).filter
            (fun e => e.name == n)).map (fun e => e.value)).sum +
          residue cfg hash (counterHb cfg now s).1 i n = residue cfg hash s i n := by
        unfold residue
        rw [hgs, hgo]
        exact cwheelHb_balance now _ _ n hash hwf
      show emittedSum ((counterHb cfg now s).2 ::
          (counterRun cfg hash (counterHb cfg now s).1 es).2) i n +
        residue cfg hash (counterRun cfg hash (counterHb cfg now s).1 es).1 i n = _
      rw [emittedSum_cons, inputSum_hb]
      have hih := ih (counterHb cfg now s).1 hs' hwf'
      calc ((((counterHb cfg now s).2.getD i []).filter (fun e => e.name == n)).map
            (fun e => e.value)).sum +
            emittedSum (counterRun cfg hash (counterHb cfg now s).1 es).2 i n +
            residue cfg hash (counterRun cfg hash (counterHb cfg now s).1 es).1 i n
          = ((((counterHb cfg now s).2.getD i []).filter (fun e => e.name == n)).map
            (fun e => e.value)).sum +
            (residue cfg hash (counterHb cfg now s).1 i n + inputSum es n) := by
            rw [add_assoc, hih]
        _ = residue cfg hash s i n + inputSum es n := by
            rw [← add_assoc, hbal]

/-- C7: counter sum conservation.  From the initial state, for any event
sequence, retention `i` and name `n`, the sum of all emitted counter values
for `n` plus the residue still pending in `n`'s single hash slot equals the
sum of all input values for `n`; the initial residue is 0, so emitted and
input sums differ exactly by that final one-slot residue (the claim's
"at most one slot's contribution" error, quantified exactly, for any window
and in particular a window of `interval[i]` seconds). -/
theorem counter_sum_conservation (cfg : Config) (hash : String → Nat)
    (events : List WheelEvent) (i : Nat) (n : String)
    (hi : i < cfg.retentions.length)
    (hm : 0 < maxSlots (cfg.retentions.getD i ⟨0⟩)) :
    emittedSum (counterRun cfg hash (initCounterState cfg) events).2 i n +
      residue cfg hash (counterRun cfg hash (initCounterState cfg) events).1 i n =
      inputSum events n ∧
    residue cfg hash (initCounterState cfg) i n = 0 := by
  have hlen : i < (initCounterState cfg).length := by
    simpa [initCounterState] using hi
  have hwf : CWFw (maxSlots (cfg.retentions.getD i ⟨0⟩)) hash
      ((initCounterState cfg).getD i ⟨0, []⟩) := by
    rw [initCounterState_getD cfg i hi]
    exact initCWheel_WF _ hash
  have hres0 : residue cfg hash (initCounterState cfg) i n = 0 := by
    unfold residue
    rw [initCounterState_getD cfg i hi]
    show cbucketGet ((List.replicate (maxSlots (cfg.retentions.getD i ⟨0⟩)) []).getD _ []) n = 0
    rw [replicate_getD]
    rfl
  have := counterRun_conservation_aux cfg hash events (initCounterState cfg) i n hi hlen hm hwf
  rw [hres0, zero_add] at this
  exact ⟨this, hres0⟩

/-- Witness for `counter_sum_conservation`: one 2-second retention, inputs
`a:5|c` then `a:2|c` around a heartbeat; emitted 5, pending 2, input 7. -/
theorem counter_sum_conservation_witness :
    emittedSum (counterRun ⟨[⟨2⟩]⟩ (fun _ => 0) (initCounterState ⟨[⟨2⟩]⟩)
        [WheelEvent.dp ⟨0, "a", 5, "c"⟩, WheelEvent.hb 0,
          WheelEvent.dp ⟨1, "a", 2, "c"⟩]).2 0 "a" +
      residue ⟨[⟨2⟩]⟩ (fun _ => 0) (counterRun ⟨[⟨2⟩]⟩ (fun _ => 0)
        (initCounterState ⟨[⟨2⟩]⟩)
        [WheelEvent.dp ⟨0, "a", 5, "c"⟩, WheelEvent.hb 0,
          WheelEvent.dp ⟨1, "a", 2, "c"⟩]).1 0 "a" =
      inputSum [WheelEvent.dp ⟨0, "a", 5, "c"⟩, WheelEvent.hb 0,
        WheelEvent.dp ⟨1, "a", 2, "c"⟩] "a" :=
  (counter_sum_conservation ⟨[⟨2⟩]⟩ (fun _ => 0)
    [WheelEvent.dp ⟨0, "a", 5, "c"⟩, WheelEvent.hb 0, WheelEvent.dp ⟨1, "a", 2, "c"⟩]
    0 "a" (by decide) (by decide)).1

/-! ### C3: when a counter observation is actually emitted -/

theorem filter_ne_nil_iff {α : Type} (p : α → Bool) (l : List α) :
    l.filter p ≠ [] ↔ ∃ a ∈ l, p a := by
  rw [ne_eq, List.filter_eq_nil_iff]
  push_neg
  simp

theorem getD_out_of_range {α : Type} (l : List α) (j : Nat) (d : α) (h : l.length ≤ j) :
    l.getD j d = d := by
  rw [List.getD_eq_getElem?_getD, List.getElem?_eq_none h]
  rfl

theorem cbucketGet_pos_mem (b : List (String × Rat)) (n : String)
    (h : 0 < cbucketGet b n) : ∃ kv ∈ b, kv.1 = n ∧ 0 < kv.2 := by
  induction b with
  | nil =>
    rw [cbucketGet_nil] at h
    exact absurd h (lt_irrefl 0)
  | cons kv rest ih =>
    cases kv with
    | mk k v =>
      rw [cbucketGet_cons] at h
      by_cases hk : k = n
      · rw [if_pos hk] at h
        exact ⟨(k, v), List.mem_cons_self _ _, hk, h⟩
      · rw [if_neg hk] at h
        obtain ⟨kv', hmem, hk', hv'⟩ := ih h
        exact ⟨kv', List.mem_cons_of_mem _ hmem, hk', hv'⟩

/-- C3 counterexample: one 2-second retention, constant hash; `a:5|c` arrives,
then two heartbeats follow inside the same 2-second window.  The first tick
(current slot = hash slot) emits the observation for `a`; the second tick
emits nothing at all for the still-active metric — so the engine does not
emit one observation per `(retention, name)` per second. -/
theorem per_second_emission_counterexample :
    (counterRun ⟨[⟨2⟩]⟩ (fun _ => 0) (initCounterState ⟨[⟨2⟩]⟩)
        [WheelEvent.dp ⟨0, "a", 5, "c"⟩, WheelEvent.hb 0, WheelEvent.hb 1]).2 =
      [[], [[⟨"a", 5, 0⟩]], [[]]] ∧
    (((counterRun ⟨[⟨2⟩]⟩ (fun _ => 0) (initCounterState ⟨[⟨2⟩]⟩)
        [WheelEvent.dp ⟨0, "a", 5, "c"⟩, WheelEvent.hb 0,
          WheelEvent.hb 1]).2.getD 2 []).getD 0 []) = [] := by
  constructor
  · rfl
  · rfl

/-- C3 amended: a counter with a positive pending accumulator is emitted on a
heartbeat tick if and only if that retention's current slot equals the name's
hash slot `hash(name) mod slots[i]`; on all other ticks of the wheel
revolution nothing is emitted for it (hence one observation per
`(retention, name)` per `slots[i]` seconds, not per second). -/
theorem counter_emission_on_hash_slot (cfg : Config) (hash : String → Nat) (now : Int)
    (s : List CWheel) (i : Nat) (n : String)
    (hi : i < cfg.retentions.length) (hs : i < s.length)
    (hwf : CWFw (maxSlots (cfg.retentions.getD i ⟨0⟩)) hash (s.getD i ⟨0, []⟩))
    (hpos : 0 < residue cfg hash s i n) :
    ((counterHb cfg now s).2.getD i []).filter (fun e => e.name == n) ≠ [] ↔
      (s.getD i ⟨0, []⟩).currentSlot = hash n % maxSlots (cfg.retentions.getD i ⟨0⟩) := by
  obtain ⟨hlen, hnd, hloc⟩ := hwf
  rw [counterHb_out_getD cfg now s i hi hs]
  have hmap : (cwheelHb now (cfg.retentions.getD i ⟨0⟩) (s.getD i ⟨0, []⟩)).2 =
      (((s.getD i ⟨0, []⟩).buckets.getD (s.getD i ⟨0, []⟩).currentSlot []).filter
        (fun kv => decide (0 < kv.2))).map
        (fun kv => CounterEmission.mk kv.1 kv.2
          (now - Int.tmod now (((cfg.retentions.getD i ⟨0⟩).interval : Int)))) := rfl
  rw [hmap, List.filter_map]
  constructor
  · intro hne
    have hne2 : (((s.getD i ⟨0, []⟩).buckets.getD (s.getD i ⟨0, []⟩).currentSlot []).filter
        (fun kv => decide (0 < kv.2))).filter
          ((fun e => e.name == n) ∘ (fun kv => CounterEmission.mk kv.1 kv.2
            (now - Int.tmod now (((cfg.retentions.getD i ⟨0⟩).interval : Int))))) ≠ [] := by
      intro hnil
      apply hne
      rw [hnil]
      rfl
    obtain ⟨kv, hmem, hp⟩ := (filter_ne_nil_iff _ _).1 hne2
    have hk1 : kv.1 = n := by simpa [Function.comp] using hp
    have hkb : kv ∈ (s.getD i ⟨0, []⟩).buckets.getD (s.getD i ⟨0, []⟩).currentSlot [] :=
      List.mem_of_mem_filter hmem
    exact hloc _ n (List.mem_map.2 ⟨kv, hkb, hk1⟩)
  · intro hcur
    unfold residue at hpos
    rw [← hcur] at hpos
    obtain ⟨kv, hmem, hk1, hv⟩ := cbucketGet_pos_mem _ n hpos
    intro hnil
    rw [List.map_eq_nil_iff] at hnil
    exact (filter_ne_nil_iff _ _).2
      ⟨kv, List.mem_filter.2 ⟨hmem, by simpa using hv⟩, by simp [Function.comp, hk1]⟩ hnil

/-- Witness for `counter_emission_on_hash_slot`: slot 0 current, name hashed
to slot 0 with pending sum 5 — the tick does emit for the name. -/
theorem counter_emission_on_hash_slot_witness :
    ((counterHb ⟨[⟨2⟩]⟩ 0 [⟨0, [[("a", 5)], []]⟩]).2.getD 0 []).filter
      (fun e => e.name == "a") ≠ [] := by
  have hwf : CWFw (maxSlots (Config.retentions ⟨[⟨2⟩]⟩ |>.getD 0 ⟨0⟩)) (fun _ => 0)
      (([⟨0, [[("a", 5)], []]⟩] : List CWheel).getD 0 ⟨0, []⟩) := by
    refine ⟨by decide, ?_, ?_⟩
    · intro j
      cases j with
      | zero => decide
      | succ j1 =>
        cases j1 with
        | zero => decide
        | succ j2 =>
          rw [getD_out_of_range _ _ _ (by simp)]
          simp
    · intro j n hmem
      cases j with
      | zero => rfl
      | succ j1 =>
        cases j1 with
        | zero => simp at hmem
        | succ j2 =>
          rw [getD_out_of_range _ _ _ (by simp)] at hmem
          simp at hmem
  exact (counter_emission_on_hash_slot ⟨[⟨2⟩]⟩ (fun _ => 0) 0 [⟨0, [[("a", 5)], []]⟩] 0 "a"
    (by decide) (by decide) hwf (by decide)).2 (by decide)

/-! ### C1: the parser's match semantics versus the spec grammar -/

theorem typeMatch_some_head (t : List Char) (ty : String) (h : typeMatch t = some ty) :
    (ty = "c" ∧ ∃ b, t = 'c' :: b) ∨ (ty = "g" ∧ ∃ b, t = 'g' :: b) ∨
      (ty = "ms" ∧ ∃ b, t = 'm' :: 's' :: b) := by
  cases t with
  | nil => cases h
  | cons c cs =>
    have h' : (if c = 'c' then some "c" else if c = 'g' then some "g"
        else if c = 'm' then typeMatchTail cs
        else none) = some ty := h
    clear h
    by_cases hc : c = 'c'
    · rw [if_pos hc] at h'
      subst hc
      injection h' with h1
      exact Or.inl ⟨h1.symm, cs, rfl⟩
    · rw [if_neg hc] at h'
      by_cases hg : c = 'g'
      · rw [if_pos hg] at h'
        subst hg
        injection h' with h1
        exact Or.inr (Or.inl ⟨h1.symm, cs, rfl⟩)
      · rw [if_neg hg] at h'
        by_cases hm : c = 'm'
        · rw [if_pos hm] at h'
          subst hm
          cases cs with
          | nil => cases h'
          | cons c2 cs2 =>
            have h2 : (if c2 = 's' then some "ms" else none) = some ty := h'
            clear h'
            by_cases hs : c2 = 's'
            · rw [if_pos hs] at h2
              subst hs
              injection h2 with h1
              exact Or.inr (Or.inr ⟨h1.symm, cs2, rfl⟩)
            · rw [if_neg hs] at h2
              cases h2
        · rw [if_neg hm] at h'
          cases h'

theorem tryValueLen_some (t : List Char) (m : Nat) (v : List Char) (ty : String)
    (h : tryValueLen t m = some (v, ty)) :
    ∃ ℓ, 1 ≤ ℓ ∧ ℓ ≤ m ∧ v = t.take ℓ ∧ t.get? ℓ = some '|' ∧
      typeMatch (t.drop (ℓ + 1)) = some ty := by
  induction m with
  | zero => cases h
  | succ m' ih =>
    unfold tryValueLen at h
    by_cases hp : t.get? (Nat.succ m') = some '|'
    · rw [if_pos hp] at h
      cases hty : typeMatch (t.drop (Nat.succ m' + 1)) with
      | some ty2 =>
        rw [hty] at h
        injection h with h1
        have hv : t.take (Nat.succ m') = v := congrArg Prod.fst h1
        have hty2 : ty2 = ty := congrArg Prod.snd h1
        exact ⟨Nat.succ m', Nat.succ_le_succ (Nat.zero_le _), le_refl _, hv.symm, hp,
          by rw [hty, hty2]⟩
      | none =>
        rw [hty] at h
        obtain ⟨ℓ, h1, h2, h3, h4, h5⟩ := ih h
        exact ⟨ℓ, h1, le_trans h2 (Nat.le_succ _), h3, h4, h5⟩
    · rw [if_neg hp] at h
      obtain ⟨ℓ, h1, h2, h3, h4, h5⟩ := ih h
      exact ⟨ℓ, h1, le_trans h2 (Nat.le_succ _), h3, h4, h5⟩

theorem tryValueLen_isSome (t : List Char) (m ℓ : Nat) (h1 : 1 ≤ ℓ) (h2 : ℓ ≤ m)
    (hp : t.get? ℓ = some '|') (hty : (typeMatch (t.drop (ℓ + 1))).isSome) :
    (tryValueLen t m).isSome := by
  induction m with
  | zero => omega
  | succ m' ih =>
    unfold tryValueLen
    by_cases hp' : t.get? (Nat.succ m') = some '|'
    · rw [if_pos hp']
      cases hty' : typeMatch (t.drop (Nat.succ m' + 1)) with
      | some ty => simp
      | none =>
        by_cases he : ℓ = Nat.succ m'
        · rw [he] at hty
          rw [hty'] at hty
          simp at hty
        · exact ih (by omega)
    · rw [if_neg hp']
      by_cases he : ℓ = Nat.succ m'
      · rw [he] at hp
        exact absurd hp hp'
      · exact ih (by omega)

theorem takeWhile_length_ge (v r : List Char) (h : ∀ c ∈ v, isValueChar c) :
    v.length ≤ ((v ++ r).takeWhile isValueChar).length := by
  induction v with
  | nil => simp
  | cons c cs ih =>
    have hc : isValueChar c := h c (List.mem_cons_self _ _)
    rw [List.cons_append, List.takeWhile_cons_of_pos hc]
    simp only [List.length_cons]
    exact Nat.succ_le_succ (ih (fun c2 hc2 => h c2 (List.mem_cons_of_mem _ hc2)))

theorem valueTypeMatch_some (t : List Char) (v : List Char) (ty : String)
    (h : valueTypeMatch t = some (v, ty)) :
    ∃ rest, t = v ++ '|' :: rest ∧ v ≠ [] ∧ (∀ c ∈ v, isValueChar c) ∧
      typeMatch rest = some ty := by
  unfold valueTypeMatch at h
  obtain ⟨ℓ, h1, h2, h3, h4, h5⟩ := tryValueLen_some _ _ _ _ h
  rw [List.get?_eq_getElem?] at h4
  have hlt : ℓ < t.length := by
    by_contra hge
    rw [List.getElem?_eq_none (by omega)] at h4
    cases h4
  have helem : t[ℓ] = '|' := by
    rw [List.getElem?_eq_getElem hlt] at h4
    injection h4
  have hdrop : t.drop ℓ = '|' :: t.drop (ℓ + 1) := by
    rw [List.drop_eq_getElem_cons hlt, helem]
  refine ⟨t.drop (ℓ + 1), ?_, ?_, ?_, h5⟩
  · rw [h3, ← hdrop]
    exact (List.take_append_drop ℓ t).symm
  · rw [h3]
    have hlen : (t.take ℓ).length = ℓ := by
      rw [List.length_take]
      omega
    intro hnil
    rw [hnil] at hlen
    simp at hlen
    omega
  · intro c hc
    rw [h3] at hc
    have htw : t.take ℓ = (t.takeWhile isValueChar).take ℓ := by
      conv_lhs => rw [← List.takeWhile_append_dropWhile isValueChar t]
      rw [List.take_append_of_le_length h2]
    rw [htw] at hc
    exact List.mem_takeWhile_imp (List.take_subset _ _ hc)

theorem valueTypeMatch_isSome_of (v rest : List Char) (hne : v ≠ [])
    (hval : ∀ c ∈ v, isValueChar c) (hty : (typeMatch rest).isSome) :
    (valueTypeMatch (v ++ '|' :: rest)).isSome := by
  unfold valueTypeMatch
  apply tryValueLen_isSome _ _ v.length
  · rcases v with _ | ⟨c, cs⟩
    · exact absurd rfl hne
    · simp
  · exact takeWhile_length_ge v ('|' :: rest) hval
  · rw [List.get?_append_right (le_refl _)]
    simp
  · have hdr : (v ++ '|' :: rest).drop (v.length + 1) = rest := by
      rw [show v ++ '|' :: rest = (v ++ ['|']) ++ rest by simp,
        show v.length + 1 = (v ++ ['|']).length by simp]
      exact List.drop_left _ _
    rw [hdr]
    exact hty

theorem mem_viableColons (σ : List Char) (k : Nat) :
    k ∈ viableColons σ ↔ k < σ.length ∧ σ.get? k = some ':' ∧
      (valueTypeMatch (σ.drop (k + 1))).isSome := by
  unfold viableColons
  rw [List.mem_filter, List.mem_range]
  constructor
  · rintro ⟨h1, h2⟩
    simp only [Bool.and_eq_true, beq_iff_eq] at h2
    exact ⟨h1, h2.1, h2.2⟩
  · rintro ⟨h1, h2, h3⟩
    rw [List.get?_eq_getElem?] at h2
    exact ⟨h1, by simp [h2, h3]⟩

theorem regexFirstMatch_isSome_iff (σ : List Char) :
    (regexFirstMatch σ).isSome ↔ viableColons σ ≠ [] := by
  constructor
  · intro h
    unfold regexFirstMatch at h
    cases hmin : natsMin ((viableColons σ).map (startFor σ)) with
    | none => rw [hmin] at h; simp at h
    | some p =>
      intro hnil
      rw [hnil] at hmin
      simp [natsMin] at hmin
  · intro hne
    have hmap : (viableColons σ).map (startFor σ) ≠ [] := by simpa using hne
    have hminsome := (natsMin_isSome_iff ((viableColons σ).map (startFor σ))).2 hmap
    obtain ⟨p, hp⟩ := Option.isSome_iff_exists.1 hminsome
    have hpmem := natsMin_mem hp
    obtain ⟨k0, hk0v, hk0e⟩ := List.mem_map.1 hpmem
    have hk0f : k0 ∈ (viableColons σ).filter (fun k => decide (startFor σ k ≤ p)) :=
      List.mem_filter.2 ⟨hk0v, by simp [hk0e]⟩
    have hfil : (viableColons σ).filter (fun k => decide (startFor σ k ≤ p)) ≠ [] :=
      List.ne_nil_of_mem hk0f
    have hmaxsome := (natsMax_isSome_iff _).2 hfil
    obtain ⟨k, hk⟩ := Option.isSome_iff_exists.1 hmaxsome
    have hkv : k ∈ viableColons σ := (List.mem_filter.1 (natsMax_mem hk)).1
    have hvs := ((mem_viableColons σ k).1 hkv).2.2
    obtain ⟨⟨v, ty⟩, hvt⟩ := Option.isSome_iff_exists.1 hvs
    unfold regexFirstMatch
    simp only [hp]
    simp only [hk]
    simp only [hvt]
    simp

theorem codeGrammar_of_viable (σ : List Char) (k : Nat) (hk : k ∈ viableColons σ) :
    CodeGrammar σ := by
  obtain ⟨hlt, hcol, hvs⟩ := (mem_viableColons σ k).1 hk
  obtain ⟨⟨v, ty⟩, hvt⟩ := Option.isSome_iff_exists.1 hvs
  obtain ⟨rest, hdec, hne, hval, hty⟩ := valueTypeMatch_some _ _ _ hvt
  rw [List.get?_eq_getElem?] at hcol
  have helem : σ[k] = ':' := by
    rw [List.getElem?_eq_getElem hlt] at hcol
    injection hcol
  have hσ : σ = σ.take k ++ ':' :: σ.drop (k + 1) := by
    rw [← helem, ← List.drop_eq_getElem_cons hlt]
    exact (List.take_append_drop k σ).symm
  rcases typeMatch_some_head _ _ hty with ⟨_, b, hb⟩ | ⟨_, b, hb⟩ | ⟨_, b, hb⟩
  · refine ⟨σ.take k, v, ['c'], b, ?_, hne, hval, Or.inl rfl⟩
    conv_lhs => rw [hσ]
    rw [hdec, hb]
    simp
  · refine ⟨σ.take k, v, ['g'], b, ?_, hne, hval, Or.inr (Or.inl rfl)⟩
    conv_lhs => rw [hσ]
    rw [hdec, hb]
    simp
  · refine ⟨σ.take k, v, ['m', 's'], b, ?_, hne, hval, Or.inr (Or.inr rfl)⟩
    conv_lhs => rw [hσ]
    rw [hdec, hb]
    simp

theorem viable_of_codeGrammar (σ : List Char) (h : CodeGrammar σ) :
    viableColons σ ≠ [] := by
  obtain ⟨a, v, t0, b, hσ, hne, hval, ht0⟩ := h
  have htyv : (typeMatch (t0 ++ b)).isSome := by
    rcases ht0 with rfl | rfl | rfl <;> rfl
  have hk : a.length ∈ viableColons σ := by
    rw [mem_viableColons]
    refine ⟨?_, ?_, ?_⟩
    · rw [hσ]
      simp
    · rw [hσ, List.get?_append_right (le_refl _)]
      simp
    · have hdr : σ.drop (a.length + 1) = v ++ '|' :: (t0 ++ b) := by
        rw [hσ, show a ++ ':' :: (v ++ '|' :: (t0 ++ b)) =
          (a ++ [':']) ++ (v ++ '|' :: (t0 ++ b)) by simp,
          show a.length + 1 = (a ++ [':']).length by simp]
        exact List.drop_left _ _
      rw [hdr]
      exact valueTypeMatch_isSome_of v (t0 ++ b) hne hval htyv
  exact List.ne_nil_of_mem hk

/-- The engine queue `processIncomingMessage` routes a type letter to. -/
def channelOfType (ty : String) : EngineChannel :=
  if ty = "g" then EngineChannel.gauge
  else if ty = "c" then EngineChannel.counter
  else EngineChannel.timer

theorem regexFirstMatch_ty (σ : List Char) (name v : List Char) (ty : String)
    (h : regexFirstMatch σ = some (name, v, ty)) :
    ty = "c" ∨ ty = "g" ∨ ty = "ms" := by
  unfold regexFirstMatch at h
  cases hmin : natsMin ((viableColons σ).map (startFor σ)) with
  | none =>
    simp only [hmin] at h
    exact Option.noConfusion h
  | some p =>
    simp only [hmin] at h
    cases hmax : natsMax ((viableColons σ).filter (fun k => decide (startFor σ k ≤ p))) with
    | none =>
      simp only [hmax] at h
      exact Option.noConfusion h
    | some k =>
      simp only [hmax] at h
      cases hvt : valueTypeMatch (σ.drop (k + 1)) with
      | none =>
        simp only [hvt] at h
        exact Option.noConfusion h
      | some vt =>
        cases vt with
        | mk v2 ty2 =>
          simp only [hvt, Option.some.injEq, Prod.mk.injEq] at h
          obtain ⟨_, _, hty2⟩ := h
          obtain ⟨rest, _, _, _, hty⟩ := valueTypeMatch_some _ _ _ hvt
          rcases typeMatch_some_head _ _ hty with ⟨he, _⟩ | ⟨he, _⟩ | ⟨he, _⟩ <;>
            rw [← hty2, he]
          · exact Or.inl rfl
          · exact Or.inr (Or.inl rfl)
          · exact Or.inr (Or.inr rfl)

theorem processIncomingMessage_of_none (now : Int) (s : String)
    (h : regexFirstMatch s.data = none) : processIncomingMessage now s = none := by
  have hd : parseDatapoint now s = ⟨0, "", 0, ""⟩ := by
    unfold parseDatapoint
    rw [h]
  simp only [processIncomingMessage]
  rw [hd]
  rw [if_neg (by decide), if_neg (by decide), if_neg (by decide)]

theorem processIncomingMessage_of_some (now : Int) (s : String) (name v : List Char)
    (ty : String) (h : regexFirstMatch s.data = some (name, v, ty)) :
    processIncomingMessage now s =
      some (channelOfType ty, ⟨now, String.mk name, (goParseFloat v).getD 0, ty⟩) := by
  have hd : parseDatapoint now s = ⟨now, String.mk name, (goParseFloat v).getD 0, ty⟩ := by
    unfold parseDatapoint
    rw [h]
  simp only [processIncomingMessage]
  rw [hd]
  rcases regexFirstMatch_ty _ _ _ _ h with rfl | rfl | rfl
  · rw [if_neg (by simp), if_pos rfl]
    rfl
  · rw [if_pos rfl]
    rfl
  · rw [if_neg (by simp), if_neg (by simp), if_pos rfl]
    rfl

/-- C1 counterexample: the line `a:||c` does not match the spec's grammar
`<name>:<value>|<type>` with `<value>` in `[0-9.]+` (checked by
`specGrammarMatch`), yet the code's regex — whose value class `[0-9|\.]`
contains the pipe — matches it with value capture `|`; `ParseFloat` fails,
the error is discarded, and a Datapoint `("a", 0, "c")` is routed to the
counter queue. -/
theorem parser_grammar_counterexample :
    specGrammarMatch "a:||c" = false ∧
    processIncomingMessage 0 "a:||c" =
      some (EngineChannel.counter, ⟨0, "a", 0, "c"⟩) := by
  constructor
  · decide
  · decide

/-- C1 amended: a line is routed to an engine queue if and only if it contains
a decomposition `a ++ ":" ++ v ++ "|" ++ t ++ b` with `v` a nonempty run of
the code's class `[0-9|.]` (not the spec's `[0-9.]`) and `t` one of `c`, `g`,
`ms` — the regex is a substring search, not anchored; on no match the empty
sentinel is produced and nothing is routed; on a match the Datapoint carries
the leftmost-first greedy captures, with the value text parsed by `ParseFloat`
and parse failures silently producing value 0. -/
theorem parser_routing (now : Int) (s : String) :
    ((processIncomingMessage now s).isSome ↔ CodeGrammar s.data) ∧
    (regexFirstMatch s.data = none → processIncomingMessage now s = none) ∧
    (∀ name v ty, regexFirstMatch s.data = some (name, v, ty) →
      processIncomingMessage now s =
        some (channelOfType ty, ⟨now, String.mk name, (goParseFloat v).getD 0, ty⟩)) := by
  refine ⟨?_, processIncomingMessage_of_none now s, ?_⟩
  · constructor
    · intro h
      cases hm : regexFirstMatch s.data with
      | none =>
        rw [processIncomingMessage_of_none now s hm] at h
        cases h
      | some nvt =>
        have hvs : (regexFirstMatch s.data).isSome := by rw [hm]; rfl
        have hne := (regexFirstMatch_isSome_iff s.data).1 hvs
        obtain ⟨k, hk⟩ := List.exists_mem_of_ne_nil _ hne
        exact codeGrammar_of_viable s.data k hk
    · intro h
      have hne := viable_of_codeGrammar s.data h
      have hvs := (regexFirstMatch_isSome_iff s.data).2 hne
      obtain ⟨⟨name, v, ty⟩, hm⟩ := Option.isSome_iff_exists.1 hvs
      rw [processIncomingMessage_of_some now s name v ty hm]
      rfl
  · intro name v ty hm
    exact processIncomingMessage_of_some now s name v ty hm

/-- Witness for `parser_routing`: the well-formed line `a:1|c` is routed to
the counter queue carrying name `a`, value 1, type `c`. -/
theorem parser_routing_witness :
    processIncomingMessage 0 "a:1|c" =
      some (EngineChannel.counter, ⟨0, "a", 1, "c"⟩) := by
  have h := (parser_routing 0 "a:1|c").2.2 "a".data "1".data "c" (by decide)
  rw [h]
  have hv : (goParseFloat "1".data).getD 0 = 1 := by
    show ((natOfDigits ['1'] : Rat) + (natOfDigits [] : Rat) / ((10 : Rat) ^ (0 : Nat))) = 1
    rw [show natOfDigits ['1'] = 1 from rfl, show natOfDigits [] = 0 from rfl]
    norm_num
  rw [hv]
  rfl
